import Mathlib

/-!
Verification development for the fake-news detector video-evidence pipeline.

The Python sources are shallowly embedded below.  Text is modelled as
`String` / `List Char` over the ASCII fragment of Python's semantics
(Python's `\d`, `\w`, `\s` classes and `str.lower` extend to Unicode;
every character class below matches Python's behaviour on ASCII, which
is the fragment exercised by all concrete inputs in this file).

The regular-expression substitutions in `remove_timestamps_and_tags`
(`app.py`) operate left-to-right over the original string, splicing out
each non-overlapping leftmost match, exactly as Python's `re.sub`.  The
timestamp pattern `\b\d{1,2}:\d{2}(:\d{2}(\.\d{1,3})?)?\b` is embedded
as an ordered cascade of alternatives (greedy hour width, then the
optional `:SS` group with greedy fraction width, each alternative
guarded by the trailing word-boundary test), which is the observable
behaviour of the backtracking engine on this pattern.  Scanners use an
explicit fuel argument (always instantiated with the list length, which
each step strictly decreases) so that all definitions are structural
and kernel-computable.
-/

/-- Python word character `\w` (ASCII fragment): letters, digits, underscore. -/
def isWordChar (c : Char) : Bool := c.isAlphanum || c == '_'

/-- Python whitespace `\s` (ASCII fragment): space, tab, newline, CR, VT, FF. -/
def pyIsSpace (c : Char) : Bool :=
  c == ' ' || c == '\t' || c == '\n' || c == '\r' || c == '\x0b' || c == '\x0c'

/-- Word-boundary test after a match: the next character (if any) is a non-word
character.  `[]` is a boundary (end of string). -/
def bdA : List Char → Bool
  | [] => true
  | c :: _ => !isWordChar c

/-- Match `:` followed by two digits; return the remainder. -/
def mCDD : List Char → Option (List Char)
  | c :: a :: b :: r =>
    if (c == ':') && a.isDigit && b.isDigit then some r else none
  | _ => none

/-- Match `.` followed by exactly one digit; return the remainder. -/
def mDot1 : List Char → Option (List Char)
  | c :: a :: r => if (c == '.') && a.isDigit then some r else none
  | _ => none

/-- Match `.` followed by exactly two digits; return the remainder. -/
def mDot2 : List Char → Option (List Char)
  | c :: a :: b :: r =>
    if (c == '.') && a.isDigit && b.isDigit then some r else none
  | _ => none

/-- Match `.` followed by exactly three digits; return the remainder. -/
def mDot3 : List Char → Option (List Char)
  | c :: a :: b :: d :: r =>
    if (c == '.') && a.isDigit && b.isDigit && d.isDigit then some r else none
  | _ => none

/-- Hour-and-minutes part `\d{1,2}:\d{2}` of the timestamp pattern, after its
first digit has already been seen: returns (consumed count, remainder).
The greedy two-digit hour and the one-digit hour are mutually exclusive
(the second character is a digit or `:`), so no backtracking between them
is observable. -/
def tsBase (cs : List Char) : Option (Nat × List Char) :=
  match cs with
  | c2 :: rest =>
    if c2.isDigit then (mCDD rest).map (fun r => (4, r))
    else (mCDD cs).map (fun r => (3, r))
  | [] => none

/-- Fraction alternatives after `:SS` has matched (remainder `r2`), in the
greedy order `\.ddd`, `\.dd`, `\.d`, no fraction; each alternative also
requires the trailing word boundary.  Returns the extra characters consumed
beyond the hour-and-minutes part. -/
def tsFrac1 (r2 : List Char) : Option Nat :=
  match mDot1 r2 with
  | some r3 => if bdA r3 then some 5 else (if bdA r2 then some 3 else none)
  | none => if bdA r2 then some 3 else none

def tsFrac2 (r2 : List Char) : Option Nat :=
  match mDot2 r2 with
  | some r3 => if bdA r3 then some 6 else tsFrac1 r2
  | none => tsFrac1 r2

def tsFrac3 (r2 : List Char) : Option Nat :=
  match mDot3 r2 with
  | some r3 => if bdA r3 then some 7 else tsFrac2 r2
  | none => tsFrac2 r2

/-- The optional `(:\d{2}(\.\d{1,3})?)?` group with the trailing `\b`,
applied to the remainder `r` after `\d{1,2}:\d{2}`: greedy alternatives
first, falling back to the empty group (which then needs `\b` right
after the minutes). -/
def tsExt (r : List Char) : Option Nat :=
  match mCDD r with
  | some r2 =>
    match tsFrac3 r2 with
    | some n => some n
    | none => if bdA r then some 0 else none
  | none => if bdA r then some 0 else none

/-- Attempt to match the timestamp pattern at the current position.
`pw` records whether the previous character (if any) is a word character;
`c` is the character at the current position and `cs` the rest.  On success
returns the number of characters consumed from `cs` (the match has length
one more).  The leading `\b` requires the previous character to be a
non-word character and the first matched character is a digit. -/
def tryTs (pw : Bool) (c : Char) (cs : List Char) : Option Nat :=
  if pw || !c.isDigit then none
  else
    match tsBase cs with
    | some (k, r) => (tsExt r).map (fun e => k + e)
    | none => none

/-- Scanner for `re.sub(r'\b\d{1,2}:\d{2}(:\d{2}(\.\d{1,3})?)?\b', '', text)`:
walk the string, splicing out each leftmost match and resuming right after
it (the last matched character is always a digit, hence a word character). -/
def tsGo : Nat → Bool → List Char → List Char
  | 0, _, l => l
  | _ + 1, _, [] => []
  | fuel + 1, pw, c :: cs =>
    match tryTs pw c cs with
    | none => c :: tsGo fuel (isWordChar c) cs
    | some k => tsGo fuel true (cs.drop k)

/-- Timestamp substitution with canonical fuel. -/
def tsSub (pw : Bool) (l : List Char) : List Char := tsGo l.length pw l

/-- The character sequences (after the leading digit) that complete a
timestamp-shaped token `H:MM`, `H:MM:SS` or `H:MM:SS.f{1,3}`:
the structural content of the regex `\d{1,2}:\d{2}(:\d{2}(\.\d{1,3})?)?`
with one leading digit stripped. -/
inductive TsShape : List Char → Prop where
  | hm1 (a b : Char) (ha : a.isDigit = true) (hb : b.isDigit = true) :
      TsShape [':', a, b]
  | hm2 (c2 a b : Char) (hc : c2.isDigit = true) (ha : a.isDigit = true)
      (hb : b.isDigit = true) : TsShape [c2, ':', a, b]
  | sec1 (a b d e : Char) (ha : a.isDigit = true) (hb : b.isDigit = true)
      (hd : d.isDigit = true) (he : e.isDigit = true) :
      TsShape [':', a, b, ':', d, e]
  | sec2 (c2 a b d e : Char) (hc : c2.isDigit = true) (ha : a.isDigit = true)
      (hb : b.isDigit = true) (hd : d.isDigit = true) (he : e.isDigit = true) :
      TsShape [c2, ':', a, b, ':', d, e]
  | fr11 (a b d e f : Char) (ha : a.isDigit = true) (hb : b.isDigit = true)
      (hd : d.isDigit = true) (he : e.isDigit = true) (hf : f.isDigit = true) :
      TsShape [':', a, b, ':', d, e, '.', f]
  | fr12 (c2 a b d e f : Char) (hc : c2.isDigit = true) (ha : a.isDigit = true)
      (hb : b.isDigit = true) (hd : d.isDigit = true) (he : e.isDigit = true)
      (hf : f.isDigit = true) : TsShape [c2, ':', a, b, ':', d, e, '.', f]
  | fr21 (a b d e f g : Char) (ha : a.isDigit = true) (hb : b.isDigit = true)
      (hd : d.isDigit = true) (he : e.isDigit = true) (hf : f.isDigit = true)
      (hg : g.isDigit = true) : TsShape [':', a, b, ':', d, e, '.', f, g]
  | fr22 (c2 a b d e f g : Char) (hc : c2.isDigit = true) (ha : a.isDigit = true)
      (hb : b.isDigit = true) (hd : d.isDigit = true) (he : e.isDigit = true)
      (hf : f.isDigit = true) (hg : g.isDigit = true) :
      TsShape [c2, ':', a, b, ':', d, e, '.', f, g]
  | fr31 (a b d e f g h : Char) (ha : a.isDigit = true) (hb : b.isDigit = true)
      (hd : d.isDigit = true) (he : e.isDigit = true) (hf : f.isDigit = true)
      (hg : g.isDigit = true) (hh : h.isDigit = true) :
      TsShape [':', a, b, ':', d, e, '.', f, g, h]
  | fr32 (c2 a b d e f g h : Char) (hc : c2.isDigit = true) (ha : a.isDigit = true)
      (hb : b.isDigit = true) (hd : d.isDigit = true) (he : e.isDigit = true)
      (hf : f.isDigit = true) (hg : g.isDigit = true) (hh : h.isDigit = true) :
      TsShape [c2, ':', a, b, ':', d, e, '.', f, g, h]

/-- No position of `l`, scanned with initial previous-word-character flag
`pw`, starts a timestamp match. -/
def noTsB : Bool → List Char → Bool
  | _, [] => true
  | pw, c :: cs => (tryTs pw c cs).isNone && noTsB (isWordChar c) cs

/-- The previous-word-character flag after scanning past `pre`, starting
from flag `pw`. -/
def prevW (pw : Bool) (pre : List Char) : Bool :=
  match pre.getLast? with
  | none => pw
  | some d => isWordChar d

/-- Split a string at every whitespace character (one separator per
whitespace character; pieces may be empty). -/
def segs : List Char → List (List Char)
  | [] => [[]]
  | c :: cs =>
    if pyIsSpace c then [] :: segs cs
    else
      match segs cs with
      | s :: rest => (c :: s) :: rest
      | [] => [[c]]

/-- A remainder that is empty or starts with a whitespace character:
what follows a maximal space-free segment. -/
def spaceHeaded (r : List Char) : Prop :=
  r = [] ∨ ∃ y ys, r = y :: ys ∧ pyIsSpace y = true

/-- A context that is empty or ends with a whitespace character: what can
precede a whitespace-delimited token. -/
def spaceTailed (l : List Char) : Prop :=
  l = [] ∨ ∃ p ps, l = ps ++ [p] ∧ pyIsSpace p = true

/-- Scanner for `re.sub(r'<[^>]+>', '', text)`: at each `<`, the greedy
`[^>]+` runs to the first later `>`; a match needs at least one character
in between. -/
def tagGo : Nat → List Char → List Char
  | 0, l => l
  | _ + 1, [] => []
  | fuel + 1, c :: cs =>
    if c == '<' then
      match cs with
      | '>' :: _ => c :: tagGo fuel cs
      | _ =>
        match cs.dropWhile (fun d => !(d == '>')) with
        | _ :: tail => tagGo fuel tail
        | [] => c :: tagGo fuel cs
    else c :: tagGo fuel cs

/-- Scanner for `re.sub(r'\s+', ' ', text)`: each maximal whitespace run
becomes a single space. -/
def wsGo : Nat → List Char → List Char
  | 0, l => l
  | _ + 1, [] => []
  | fuel + 1, c :: cs =>
    if pyIsSpace c then ' ' :: wsGo fuel (cs.dropWhile pyIsSpace)
    else c :: wsGo fuel cs

/-- Remove trailing whitespace characters. -/
def dropTrail : List Char → List Char
  | [] => []
  | c :: cs =>
    match dropTrail cs with
    | [] => if pyIsSpace c then [] else [c]
    | r => c :: r

/-- Python `str.strip()`. -/
def pyStrip (l : List Char) : List Char := dropTrail (l.dropWhile pyIsSpace)

/-- `app.py` `remove_timestamps_and_tags`: drop timestamp tokens, drop
angle-bracket tags, collapse whitespace runs to single spaces, strip. -/
def remove_timestamps_and_tags (s : String) : String :=
  let a := tsSub false s.data
  let b := tagGo a.length a
  let c := wsGo b.length b
  ⟨pyStrip c⟩

/-- `app.py` `clean_extracted_text`: empty (falsy) input short-circuits to
the empty string, otherwise `remove_timestamps_and_tags`. -/
def clean_extracted_text (s : String) : String :=
  if s = "" then "" else remove_timestamps_and_tags s

/-- `app.py` `create_verification_prompt`: fixed instructional preamble
followed by the evidence text. -/
def create_verification_prompt (text : String) : String :=
  "Please analyze the following news content and answer:\n" ++
  "- Is this news genuine (true) or false?\n" ++
  "- Provide reasons supporting your conclusion.\n\n" ++
  "News content:\n" ++ text

/-- `app.py` `process_video_and_audio`, lines 131-135: join the non-empty
evidence fields with newlines (`"\n".join(filter(None, [...]))`), normalize,
and wrap in the verification prompt template. -/
def evidence_combined (transcript subtitleText frameText : String) : String :=
  clean_extracted_text
    (String.intercalate "\n"
      (([transcript, subtitleText, frameText]).filter (fun s => !(s == ""))))

/-- The full evidence-to-prompt pipeline of `process_video_and_audio`. -/
def evidence_prompt (transcript subtitleText frameText : String) : String :=
  create_verification_prompt (evidence_combined transcript subtitleText frameText)

/-- Does the line contain the fragment `-->` (a VTT timing line)? -/
def hasTimingArrow : List Char → Bool
  | '-' :: '-' :: '>' :: _ => true
  | _ :: rest => hasTimingArrow rest
  | [] => false

/-- `re.match(r'^\d+$', line)` on an already-stripped line: at least one
character and all of them digits. -/
def isCueIndex (l : List Char) : Bool := !l.isEmpty && l.all Char.isDigit

/-- Python `str.strip` on a `String`. -/
def pyStripStr (s : String) : String := ⟨pyStrip s.data⟩

/-- The body of the `vtt_to_plaintext` loop (`app.py`): strip each line,
skip blank lines, timing lines and cue-index lines, keep the rest in order. -/
def vttLines : List String → List String
  | [] => []
  | ln :: rest =>
    let t : String := pyStripStr ln
    if t == "" || hasTimingArrow t.data || isCueIndex t.data then vttLines rest
    else t :: vttLines rest

/-- `app.py` `vtt_to_plaintext`, modelled on the sequence of lines read from
the subtitle file: kept lines joined with single spaces. -/
def vtt_to_plaintext (lines : List String) : String :=
  String.intercalate " " (vttLines lines)

/-- The keep/skip test of `vtt_to_plaintext` on a stripped line. -/
def vttKeepStr (t : String) : Bool :=
  !(t == "" || hasTimingArrow t.data || isCueIndex t.data)

/-- The frame-retention loop shared by `analyze_video_for_duplicates` and
`extract_visible_text_from_frames` (`video_processor.py`): walk the decoded
stream keeping a counter, retaining the frame exactly when the counter is
divisible by the stride.  The video is modelled as the list of its decoded
frames. -/
def sampleFrames {F : Type} (skip : Nat) : Nat → List F → List (Nat × F)
  | _, [] => []
  | i, f :: fs =>
    if i % skip = 0 then (i, f) :: sampleFrames skip (i + 1) fs
    else sampleFrames skip (i + 1) fs

/-- The adjacent-pair loop of `analyze_video_for_duplicates`: for each `i`,
compare frame `i` with frame `i+1` and report the id pair when the
similarity score strictly exceeds the threshold.  The SSIM score is
modelled as an abstract rational-valued function. -/
def adjDupPairs {G : Type} (score : G → G → ℚ) (thr : ℚ) :
    List (Nat × G) → List (Nat × Nat)
  | [] => []
  | [_] => []
  | a :: b :: rest =>
    (if score a.2 b.2 > thr then [(a.1, b.1)] else []) ++
      adjDupPairs score thr (b :: rest)

/-- The report dictionary returned by `analyze_video_for_duplicates`. -/
structure DupReport where
  total_frames_extracted : Nat
  duplicate_count : Nat
  duplicate_frame_pairs : List (Nat × Nat)
  deriving Repr, DecidableEq

/-- `video_processor.py` `analyze_video_for_duplicates`: sample every
`skip`-th decoded frame (converted to grayscale by `gray`), then score
adjacent sampled pairs.  Defaults in the source: `frame_skip=5`,
`similarity_threshold=0.97`. -/
def analyze_video_for_duplicates {F G : Type} (video : List F) (gray : F → G)
    (score : G → G → ℚ) (skip : Nat) (thr : ℚ) : DupReport :=
  let frames := (sampleFrames skip 0 video).map (fun p => (p.1, gray p.2))
  let pairs := adjDupPairs score thr frames
  ⟨frames.length, pairs.length, pairs⟩

/-- The loop of `extract_visible_text_from_frames`: OCR each sampled frame;
an OCR call is modelled as `Except`-valued (a Python exception is
`Except.error`, and the loop contains no handler, so an error propagates).
Non-empty stripped results are accumulated in order and joined with
newlines. -/
def evGo {F G : Type} (ocr : G → Except String String) (gray : F → G)
    (skip : Nat) : Nat → List String → List F → Except String String
  | _, acc, [] => Except.ok (String.intercalate "\n" acc.reverse)
  | i, acc, f :: fs =>
    if i % skip = 0 then
      match ocr (gray f) with
      | Except.error e => Except.error e
      | Except.ok t =>
        let tt := pyStripStr t
        if tt == "" then evGo ocr gray skip (i + 1) acc fs
        else evGo ocr gray skip (i + 1) (tt :: acc) fs
    else evGo ocr gray skip (i + 1) acc fs

/-- `video_processor.py` `extract_visible_text_from_frames` (default
`frame_skip=30`). -/
def extract_visible_text_from_frames {F G : Type} (video : List F)
    (gray : F → G) (ocr : G → Except String String) (skip : Nat) :
    Except String String :=
  evGo ocr gray skip 0 [] video

/-- The fixed fact-checking preamble of `verify_with_bard`
(`verifier.py`). -/
def bardPreamble : String :=
  "You are a fact-checking assistant. " ++
  "Is the following news content potentially fake or misleading? " ++
  "Reply briefly with \x27Yes\x27 or \x27No\x27 and explain why.\n\n"

/-- `verifier.py` `verify_with_bard`: the oracle call
(`bard.get_answer(prompt)` followed by the `['content']` lookup, both
inside the `try` block) is modelled as one `Except`-valued collaborator;
on any exception the function returns the descriptive string
`"Bard Error: "` followed by the exception text, on success the content. -/
def verify_with_bard (oracle : String → Except String String)
    (text : String) : String :=
  match oracle (bardPreamble ++ text) with
  | Except.ok content => content
  | Except.error e => "Bard Error: " ++ e

/-- Dictionary lookup `TRIGGER_WORDS.get(k)`, with the configuration
modelled as an association list. -/
def lookupCfg (cfg : List (String × List String)) (k : String) :
    Option (List String) :=
  (cfg.find? (fun p => p.1 == k)).map (fun p => p.2)

/-- `TRIGGER_WORDS.get(lang, TRIGGER_WORDS.get("en", []))` from
`text_analyzer.py`. -/
def triggersFor (cfg : List (String × List String)) (lang : String) :
    List String :=
  (lookupCfg cfg lang).getD ((lookupCfg cfg "en").getD [])

/-- Is `pat` a prefix of `s` (character lists)? -/
def pfx : List Char → List Char → Bool
  | [], _ => true
  | _ :: _, [] => false
  | a :: as, b :: bs => (a == b) && pfx as bs

/-- Python substring containment `pat in s`. -/
def occursIn : List Char → List Char → Bool
  | pat, [] => pfx pat []
  | pat, c :: rest => pfx pat (c :: rest) || occursIn pat rest

/-- Python `str.lower` (ASCII fragment), character by character. -/
def pyLowerChar (c : Char) : Char :=
  if 'A' ≤ c && c ≤ 'Z' then Char.ofNat (c.toNat + 32) else c

/-- Python `str.lower` on a string, as a character list. -/
def pyLower (s : String) : List Char := s.data.map pyLowerChar

/-- Duplicate removal keeping first occurrences, with an accumulator of
already-seen elements. -/
def dedupSeen : List String → List String → List String
  | [], _ => []
  | x :: xs, seen =>
    if seen.contains x then dedupSeen xs seen
    else x :: dedupSeen xs (x :: seen)

/-- `list(set(found))`: Python's set ordering is arbitrary; the model keeps
first occurrences. -/
def pySetList (l : List String) : List String := dedupSeen l []

/-- `text_analyzer.py` `detect_trigger_words`: filter the configured list
for words whose lowercase form occurs in the lowercased text, then
deduplicate. -/
def detect_trigger_words (cfg : List (String × List String)) (text : String)
    (lang : String) : List String :=
  pySetList ((triggersFor cfg lang).filter
    (fun w => occursIn (pyLower w) (pyLower text)))

/-! ### Helper lemmas for the sampler, duplicate detector and trigger words -/

/-- Membership characterization of the retained positions of the frame
sampler, with a running start index. -/
theorem sampleFrames_fst_mem {F : Type} (S : Nat) (i p : Nat) (l : List F) :
    p ∈ (sampleFrames S i l).map Prod.fst ↔
      (i ≤ p ∧ p < i + l.length ∧ p % S = 0) := by
  induction l generalizing i with
  | nil => simp [sampleFrames]; omega
  | cons f fs ih =>
    have hlen : (f :: fs).length = fs.length + 1 := rfl
    by_cases h : i % S = 0
    · simp only [sampleFrames, if_pos h, List.map_cons, List.mem_cons, ih, hlen]
      constructor
      · rintro (rfl | ⟨h1, h2, h3⟩)
        · exact ⟨Nat.le_refl _, by omega, h⟩
        · exact ⟨by omega, by omega, h3⟩
      · rintro ⟨h1, h2, h3⟩
        by_cases hp : p = i
        · exact Or.inl hp
        · exact Or.inr ⟨by omega, by omega, h3⟩
    · simp only [sampleFrames, if_neg h, ih, hlen]
      constructor
      · rintro ⟨h1, h2, h3⟩
        exact ⟨by omega, by omega, h3⟩
      · rintro ⟨h1, h2, h3⟩
        have hp : p ≠ i := by rintro rfl; exact h h3
        exact ⟨by omega, by omega, h3⟩

/-- The retained positions are strictly increasing. -/
theorem sampleFrames_fst_pairwise {F : Type} (S : Nat) (i : Nat) (l : List F) :
    ((sampleFrames S i l).map Prod.fst).Pairwise (· < ·) := by
  induction l generalizing i with
  | nil => simp [sampleFrames]
  | cons f fs ih =>
    by_cases h : i % S = 0
    · simp only [sampleFrames, if_pos h, List.map_cons, List.pairwise_cons]
      refine ⟨fun q hq => ?_, ih (i + 1)⟩
      have := (sampleFrames_fst_mem S (i + 1) q fs).mp hq
      omega
    · simpa [sampleFrames, if_neg h] using ih (i + 1)

/-- Membership characterization of the adjacent duplicate pairs. -/
theorem adjDupPairs_mem {G : Type} (score : G → G → ℚ) (thr : ℚ)
    (frames : List (Nat × G)) (x y : Nat) :
    (x, y) ∈ adjDupPairs score thr frames ↔
      ∃ i, ∃ h : i + 1 < frames.length,
        (frames.get ⟨i, Nat.lt_of_succ_lt h⟩).1 = x ∧
        (frames.get ⟨i + 1, h⟩).1 = y ∧
        thr < score (frames.get ⟨i, Nat.lt_of_succ_lt h⟩).2
          (frames.get ⟨i + 1, h⟩).2 := by
  induction frames with
  | nil => simp [adjDupPairs]
  | cons a rest ih =>
    cases rest with
    | nil =>
      simp only [adjDupPairs, List.not_mem_nil, List.length_singleton, false_iff]
      rintro ⟨i, h, -⟩; omega
    | cons b rest2 =>
      simp only [adjDupPairs, List.mem_append, ih]
      constructor
      · rintro (hm | ⟨j, hj, h1, h2, h3⟩)
        · by_cases hs : score a.2 b.2 > thr
          · rw [if_pos hs] at hm
            simp only [List.mem_singleton, Prod.mk.injEq] at hm
            refine ⟨0, ?_, ?_, ?_, ?_⟩
            · simp only [List.length_cons]; omega
            · simpa [List.get_cons_zero] using hm.1.symm
            · simpa [List.get_cons_succ, List.get_cons_zero] using hm.2.symm
            · simpa [List.get_cons_zero, List.get_cons_succ] using hs
          · rw [if_neg hs] at hm; simp at hm
        · refine ⟨j + 1, ?_, ?_, ?_, ?_⟩
          · simp only [List.length_cons] at hj ⊢; omega
          · simpa [List.get_cons_succ] using h1
          · simpa [List.get_cons_succ] using h2
          · simpa [List.get_cons_succ] using h3
      · rintro ⟨i, hi, h1, h2, h3⟩
        cases i with
        | zero =>
          refine Or.inl ?_
          have h1a : a.1 = x := h1
          have h2a : b.1 = y := h2
          have h3a : thr < score a.2 b.2 := h3
          rw [if_pos h3a]
          simp only [List.mem_singleton, Prod.mk.injEq]
          exact ⟨h1a.symm, h2a.symm⟩
        | succ j =>
          refine Or.inr ⟨j, ?_, ?_, ?_, ?_⟩
          · simp only [List.length_cons] at hi ⊢; omega
          · simpa [List.get_cons_succ] using h1
          · simpa [List.get_cons_succ] using h2
          · simpa [List.get_cons_succ] using h3

/-- On a frame sequence of length at most one, no pairs are produced. -/
theorem adjDupPairs_short {G : Type} (score : G → G → ℚ) (thr : ℚ)
    (frames : List (Nat × G)) (h : frames.length ≤ 1) :
    adjDupPairs score thr frames = [] := by
  match frames, h with
  | [], _ => rfl
  | [a], _ => rfl

/-- Members of the deduplicated list were not in the seen accumulator. -/
theorem dedupSeen_not_seen (l : List String) :
    ∀ seen w, w ∈ dedupSeen l seen → seen.contains w = false := by
  induction l with
  | nil => intro seen w h; simp [dedupSeen] at h
  | cons x xs ih =>
    intro seen w h
    simp only [dedupSeen] at h
    by_cases hc : seen.contains x
    · rw [if_pos hc] at h; exact ih seen w h
    · rw [if_neg hc] at h
      rcases List.mem_cons.mp h with rfl | hm
      · simpa using hc
      · have := ih (x :: seen) w hm
        simp only [List.contains_cons, Bool.or_eq_false_iff] at this
        exact this.2

/-- The deduplicated list has no duplicates. -/
theorem dedupSeen_nodup (l : List String) : ∀ seen, (dedupSeen l seen).Nodup := by
  induction l with
  | nil => intro seen; simp [dedupSeen]
  | cons x xs ih =>
    intro seen
    simp only [dedupSeen]
    by_cases hc : seen.contains x
    · rw [if_pos hc]; exact ih seen
    · rw [if_neg hc]
      refine List.nodup_cons.mpr ⟨fun hm => ?_, ih (x :: seen)⟩
      have := dedupSeen_not_seen xs (x :: seen) x hm
      simp at this

/-- Deduplication does not invent members. -/
theorem dedupSeen_subset (l : List String) :
    ∀ seen w, w ∈ dedupSeen l seen → w ∈ l := by
  induction l with
  | nil => intro seen w h; simp [dedupSeen] at h
  | cons x xs ih =>
    intro seen w h
    simp only [dedupSeen] at h
    by_cases hc : seen.contains x
    · rw [if_pos hc] at h; exact List.mem_cons_of_mem _ (ih seen w h)
    · rw [if_neg hc] at h
      rcases List.mem_cons.mp h with rfl | hm
      · exact List.mem_cons_self _ _
      · exact List.mem_cons_of_mem _ (ih (x :: seen) w hm)

/-- The kept-lines loop equals strip-then-filter. -/
theorem vttLines_eq_filter (lines : List String) :
    vttLines lines = (lines.map pyStripStr).filter vttKeepStr := by
  induction lines with
  | nil => rfl
  | cons ln rest ih =>
    simp only [vttLines, List.map_cons, List.filter_cons]
    by_cases h : (pyStripStr ln == "" || hasTimingArrow (pyStripStr ln).data
        || isCueIndex (pyStripStr ln).data) = true
    · rw [if_pos h, ih]
      have hk : vttKeepStr (pyStripStr ln) = false := by
        simp only [vttKeepStr, h, Bool.not_true]
      rw [hk]
      simp
    · rw [if_neg h, ih]
      rw [Bool.not_eq_true] at h
      have hk : vttKeepStr (pyStripStr ln) = true := by
        simp only [vttKeepStr, h, Bool.not_false]
      rw [hk]
      simp

/-! ### Claim theorems (first batch) -/

/-- C1 counterexample: `clean_extracted_text` is not idempotent.  On
`"1<x>:30"` the first pass removes the tag `<x>`, exposing the fresh
timestamp token `1:30`, which only a second pass removes. -/
theorem C1_counterexample :
    clean_extracted_text (clean_extracted_text "1<x>:30") ≠
      clean_extracted_text "1<x>:30" := by decide

/-- C2 counterexample: an OCR failure on one sampled frame aborts the
whole batch.  With two frames, stride 1, OCR failing on frame 0 and
succeeding with `"hi"` on frame 1, the function returns the error rather
than the joined text `"hi"` of the frames that succeeded. -/
theorem C2_counterexample :
    extract_visible_text_from_frames [0, 1] (fun n : Nat => n)
        (fun n => if n = 0 then Except.error "ocr failure" else Except.ok "hi") 1 =
      Except.error "ocr failure" ∧
    extract_visible_text_from_frames [0, 1] (fun n : Nat => n)
        (fun n => if n = 0 then Except.error "ocr failure" else Except.ok "hi") 1 ≠
      Except.ok "hi" := by
  refine ⟨rfl, fun h => ?_⟩
  rw [show extract_visible_text_from_frames [0, 1] (fun n : Nat => n)
      (fun n => if n = 0 then Except.error "ocr failure" else Except.ok "hi") 1 =
      Except.error "ocr failure" from rfl] at h
  exact Except.noConfusion h

/-- If OCR fails on the sampled frame at relative position `i` while every
earlier sampled frame succeeds, the scan loop returns that error, whatever
text `acc` has already accumulated. -/
theorem evGo_error {F G : Type} (ocr : G → Except String String) (gray : F → G)
    (skip : Nat) :
    ∀ (fs : List F) (istart : Nat) (acc : List String) (i : Nat)
      (hi : i < fs.length) (e : String),
      (istart + i) % skip = 0 →
      ocr (gray (fs.get ⟨i, hi⟩)) = Except.error e →
      (∀ j (hj : j < i), (istart + j) % skip = 0 →
        ∃ t, ocr (gray (fs.get ⟨j, Nat.lt_trans hj hi⟩)) = Except.ok t) →
      evGo ocr gray skip istart acc fs = Except.error e := by
  intro fs
  induction fs with
  | nil => intro istart acc i hi e h1 h2 h3; simp at hi
  | cons f fs' ih =>
    intro istart acc i hi e h1 h2 h3
    cases i with
    | zero =>
      have hsamp : istart % skip = 0 := by simpa using h1
      have herr : ocr (gray f) = Except.error e := h2
      simp [evGo, hsamp, herr]
    | succ j =>
      have hj' : j < fs'.length := by simp at hi; omega
      have h1' : (istart + 1 + j) % skip = 0 := by
        have hsh : istart + 1 + j = istart + (j + 1) := by omega
        rw [hsh]; exact h1
      have h2' : ocr (gray (fs'.get ⟨j, hj'⟩)) = Except.error e := h2
      have h3' : ∀ j2 (hj2 : j2 < j), (istart + 1 + j2) % skip = 0 →
          ∃ t, ocr (gray (fs'.get ⟨j2, Nat.lt_trans hj2 hj'⟩)) = Except.ok t := by
        intro j2 hj2 hs2
        have hs2' : (istart + (j2 + 1)) % skip = 0 := by
          have hsh : istart + (j2 + 1) = istart + 1 + j2 := by omega
          rw [hsh]; exact hs2
        exact h3 (j2 + 1) (Nat.succ_lt_succ hj2) hs2'
      by_cases hsamp : istart % skip = 0
      · obtain ⟨t, ht⟩ := h3 0 (Nat.succ_pos j) (by simpa using hsamp)
        have ht' : ocr (gray f) = Except.ok t := ht
        by_cases htt : (pyStripStr t == "") = true
        · have step : evGo ocr gray skip istart acc (f :: fs') =
              evGo ocr gray skip (istart + 1) acc fs' := by
            simp [evGo, hsamp, ht', htt]
          rw [step]
          exact ih (istart + 1) acc j hj' e h1' h2' h3'
        · have step : evGo ocr gray skip istart acc (f :: fs') =
              evGo ocr gray skip (istart + 1) (pyStripStr t :: acc) fs' := by
            simp [evGo, hsamp, ht', htt]
          rw [step]
          exact ih (istart + 1) (pyStripStr t :: acc) j hj' e h1' h2' h3'
      · have step : evGo ocr gray skip istart acc (f :: fs') =
            evGo ocr gray skip (istart + 1) acc fs' := by
          simp [evGo, hsamp]
        rw [step]
        exact ih (istart + 1) acc j hj' e h1' h2' h3'

/-- C2 amended: `extract_visible_text_from_frames` contains no exception
handler, so an OCR exception on any sampled frame propagates and aborts
the whole batch: if OCR fails on the sampled frame at decoded position
`i` after succeeding on every earlier sampled frame, the function returns
that error, and the text accumulated from the earlier frames is discarded
— no partial joined text is returned. -/
theorem C2_ocr_error_propagates {F G : Type} (video : List F) (gray : F → G)
    (ocr : G → Except String String) (skip : Nat) (i : Nat)
    (hi : i < video.length) (e : String)
    (hsamp : i % skip = 0)
    (herr : ocr (gray (video.get ⟨i, hi⟩)) = Except.error e)
    (hok : ∀ j (hj : j < i), j % skip = 0 →
      ∃ t, ocr (gray (video.get ⟨j, Nat.lt_trans hj hi⟩)) = Except.ok t) :
    extract_visible_text_from_frames video gray ocr skip = Except.error e := by
  apply evGo_error ocr gray skip video 0 [] i hi e
  · simpa using hsamp
  · exact herr
  · intro j hj hs
    exact hok j hj (by simpa using hs)

/-- Witness for C2 amended: stride 1, OCR succeeds with `"hi"` on frame 0
and fails on frame 1; the error is returned and the accumulated `"hi"` is
discarded. -/
theorem C2_witness :
    extract_visible_text_from_frames [5, 7] (fun n : Nat => n)
      (fun n => if n = 7 then Except.error "boom" else Except.ok "hi") 1 =
      Except.error "boom" :=
  C2_ocr_error_propagates [5, 7] (fun n : Nat => n)
    (fun n => if n = 7 then Except.error "boom" else Except.ok "hi") 1 1
    (by decide) "boom" (by decide) rfl
    (fun j hj hs => by
      have hj0 : j = 0 := by omega
      subst hj0
      exact ⟨"hi", rfl⟩)

/-- C3 counterexample: the code has no maximum-sample-count parameter.
Instantiating the claim at stride S = 1 and maximum count M = 0 on a
one-frame stream: the sampler retains one frame, exceeding M. -/
theorem C3_counterexample :
    ¬ (sampleFrames 1 0 [()]).length ≤ 0 := by decide

/-- C3 amended: for every stride S ≥ 1 the sampler retains the frame at
decoded position p iff p mod S = 0, the retained positions are strictly
increasing multiples of S, but there is no maximum-count bound: every
qualifying position up to the end of the stream is retained. -/
theorem C3_sampling_positions {F : Type} (video : List F) (S : Nat)
    (hS : 1 ≤ S) :
    (∀ p, p ∈ (sampleFrames S 0 video).map Prod.fst ↔
        p < video.length ∧ p % S = 0) ∧
    ((sampleFrames S 0 video).map Prod.fst).Pairwise (· < ·) ∧
    (∀ p ∈ (sampleFrames S 0 video).map Prod.fst, S ∣ p) := by
  refine ⟨fun p => ?_, sampleFrames_fst_pairwise S 0 video, fun p hp => ?_⟩
  · rw [sampleFrames_fst_mem]
    constructor
    · rintro ⟨-, h2, h3⟩; exact ⟨by omega, h3⟩
    · rintro ⟨h2, h3⟩; exact ⟨Nat.zero_le _, by omega, h3⟩
  · have := (sampleFrames_fst_mem S 0 p video).mp hp
    exact Nat.dvd_of_mod_eq_zero this.2.2

/-- Witness for C3 amended at stride 2 on a five-frame stream. -/
theorem C3_witness :
    (∀ p, p ∈ (sampleFrames 2 0 ([9, 9, 9, 9, 9] : List Nat)).map Prod.fst ↔
        p < 5 ∧ p % 2 = 0) ∧
    ((sampleFrames 2 0 ([9, 9, 9, 9, 9] : List Nat)).map Prod.fst).Pairwise (· < ·) ∧
    (∀ p ∈ (sampleFrames 2 0 ([9, 9, 9, 9, 9] : List Nat)).map Prod.fst, 2 ∣ p) :=
  C3_sampling_positions ([9, 9, 9, 9, 9] : List Nat) 2 (by decide)

/-- C4: `analyze_video_for_duplicates` reports exactly the adjacent
sampled pairs whose similarity score strictly exceeds the threshold; no
non-adjacent pair is reported (membership forces adjacency), and a
sampled sequence of length 0 or 1 yields zero pairs. -/
theorem C4_adjacent_duplicates {F G : Type} (video : List F) (gray : F → G)
    (score : G → G → ℚ) (skip : Nat) (thr : ℚ) :
    (∀ x y,
      (x, y) ∈ (analyze_video_for_duplicates video gray score skip thr).duplicate_frame_pairs ↔
      ∃ i, ∃ h : i + 1 < ((sampleFrames skip 0 video).map (fun p => (p.1, gray p.2))).length,
        (((sampleFrames skip 0 video).map (fun p => (p.1, gray p.2))).get
          ⟨i, Nat.lt_of_succ_lt h⟩).1 = x ∧
        (((sampleFrames skip 0 video).map (fun p => (p.1, gray p.2))).get ⟨i + 1, h⟩).1 = y ∧
        thr < score (((sampleFrames skip 0 video).map (fun p => (p.1, gray p.2))).get
            ⟨i, Nat.lt_of_succ_lt h⟩).2
          (((sampleFrames skip 0 video).map (fun p => (p.1, gray p.2))).get ⟨i + 1, h⟩).2) ∧
    (((sampleFrames skip 0 video).map (fun p => (p.1, gray p.2))).length ≤ 1 →
      (analyze_video_for_duplicates video gray score skip thr).duplicate_frame_pairs = []) := by
  constructor
  · intro x y
    exact adjDupPairs_mem score thr _ x y
  · intro h
    exact adjDupPairs_short score thr _ h

/-- C6: `vtt_to_plaintext` strips each caption line, discards blank
lines, timing lines (containing `-->`) and cue-index lines (digits only),
keeps every other line in original order without deduplication, and joins
the kept lines with single spaces; the spec's example evaluates to
`"Hello world"`, and a repeated caption is kept twice in order. -/
theorem C6_subtitle_normalizer :
    (∀ lines, vtt_to_plaintext lines =
      String.intercalate " " ((lines.map pyStripStr).filter vttKeepStr)) ∧
    vtt_to_plaintext ["1", "00:00:01.000 --> 00:00:02.000", "Hello world", ""] =
      "Hello world" ∧
    vtt_to_plaintext ["Breaking", "news", "Breaking"] = "Breaking news Breaking" := by
  refine ⟨fun lines => ?_, by decide, by decide⟩
  rw [vtt_to_plaintext, vttLines_eq_filter]

/-- C7: the evidence aggregator is deterministic — two runs on equal
(transcript, subtitleText, frameText) triples produce identical prompt
strings.  The join-filter-normalize-wrap pipeline is a pure function of
the triple. -/
theorem C7_evidence_prompt_deterministic (t1 s1 f1 t2 s2 f2 : String)
    (ht : t1 = t2) (hs : s1 = s2) (hf : f1 = f2) :
    evidence_prompt t1 s1 f1 = evidence_prompt t2 s2 f2 := by
  rw [ht, hs, hf]

/-- Witness for C7 at a concrete evidence triple. -/
theorem C7_witness :
    evidence_prompt "said 1:23" "sub" "frame" =
      evidence_prompt "said 1:23" "sub" "frame" :=
  C7_evidence_prompt_deterministic "said 1:23" "sub" "frame"
    "said 1:23" "sub" "frame" rfl rfl rfl

/-- C8: on three empty inputs the aggregator produces (without raising)
the fixed template preamble followed by empty content. -/
theorem C8_all_empty_prompt :
    evidence_prompt "" "" "" =
      "Please analyze the following news content and answer:\n" ++
      "- Is this news genuine (true) or false?\n" ++
      "- Provide reasons supporting your conclusion.\n\n" ++
      "News content:\n" := by decide

/-- C9: `verify_with_bard` returns normally in both branches: if the
oracle call raises, the exception text is returned prefixed with
`"Bard Error: "`; on success the oracle's content is returned. -/
theorem C9_oracle_failure_recovered (oracle : String → Except String String)
    (text : String) :
    (∀ e, oracle (bardPreamble ++ text) = Except.error e →
      verify_with_bard oracle text = "Bard Error: " ++ e) ∧
    (∀ c, oracle (bardPreamble ++ text) = Except.ok c →
      verify_with_bard oracle text = c) := by
  constructor <;> intro r h <;> simp [verify_with_bard, h]

/-- Witness for C9 at a concrete failing oracle. -/
theorem C9_witness :
    verify_with_bard (fun _ => Except.error "quota exceeded") "claim" =
      "Bard Error: " ++ "quota exceeded" :=
  (C9_oracle_failure_recovered (fun _ => Except.error "quota exceeded")
    "claim").1 "quota exceeded" rfl

/-- C10: `detect_trigger_words` returns a duplicate-free list; every
element belongs to the configured trigger list for the language (with the
English fallback, then the empty list), and its lowercase form occurs as
a substring of the lowercased input text. -/
theorem C10_trigger_words (cfg : List (String × List String))
    (text lang : String) :
    (detect_trigger_words cfg text lang).Nodup ∧
    ∀ w ∈ detect_trigger_words cfg text lang,
      w ∈ triggersFor cfg lang ∧ occursIn (pyLower w) (pyLower text) = true := by
  refine ⟨dedupSeen_nodup _ [], fun w hw => ?_⟩
  have hm := dedupSeen_subset _ [] w hw
  have h2 := List.mem_filter.mp hm
  exact ⟨h2.1, h2.2⟩

/-! ### Character facts and full-token matching -/

theorem isDigit_isWord {c : Char} (h : c.isDigit = true) : isWordChar c = true := by
  simp [isWordChar, Char.isAlphanum, h]

theorem colon_isDigit : (':' : Char).isDigit = false := by decide

theorem dot_isDigit : ('.' : Char).isDigit = false := by decide

theorem colon_isWord : isWordChar ':' = false := by decide

theorem dot_isWord : isWordChar '.' = false := by decide

theorem digit_beq_colon {c : Char} (h : c.isDigit = true) : (c == ':') = false := by
  by_cases hc : c = ':'
  · subst hc; exact absurd h (by decide)
  · exact beq_eq_false_iff_ne.mpr hc

theorem digit_beq_dot {c : Char} (h : c.isDigit = true) : (c == '.') = false := by
  by_cases hc : c = '.'
  · subst hc; exact absurd h (by decide)
  · exact beq_eq_false_iff_ne.mpr hc

theorem tsGo_nil (fuel : Nat) (pw : Bool) : tsGo fuel pw [] = [] := by
  cases fuel <;> rfl

/-- On a full timestamp-shaped token, the matcher consumes everything. -/
theorem tryTs_token (c : Char) (u : List Char) (hc : c.isDigit = true)
    (hu : TsShape u) : tryTs false c u = some u.length := by
  cases hu with
  | hm1 a b ha hb =>
    simp [tryTs, hc, tsBase, tsExt, mCDD, colon_isDigit, ha, hb, bdA]
  | hm2 c2 a b h2 ha hb =>
    simp [tryTs, hc, tsBase, tsExt, mCDD, h2, ha, hb, bdA]
  | sec1 a b d e ha hb hd he =>
    simp [tryTs, hc, tsBase, tsExt, tsFrac3, tsFrac2, tsFrac1, mCDD,
      mDot1, mDot2, mDot3, colon_isDigit, ha, hb, hd, he, bdA]
  | sec2 c2 a b d e h2 ha hb hd he =>
    simp [tryTs, hc, tsBase, tsExt, tsFrac3, tsFrac2, tsFrac1, mCDD,
      mDot1, mDot2, mDot3, h2, ha, hb, hd, he, bdA]
  | fr11 a b d e f ha hb hd he hf =>
    simp [tryTs, hc, tsBase, tsExt, tsFrac3, tsFrac2, tsFrac1, mCDD,
      mDot1, mDot2, mDot3, colon_isDigit, ha, hb, hd, he, hf, bdA]
  | fr12 c2 a b d e f h2 ha hb hd he hf =>
    simp [tryTs, hc, tsBase, tsExt, tsFrac3, tsFrac2, tsFrac1, mCDD,
      mDot1, mDot2, mDot3, h2, ha, hb, hd, he, hf, bdA]
  | fr21 a b d e f g ha hb hd he hf hg =>
    simp [tryTs, hc, tsBase, tsExt, tsFrac3, tsFrac2, tsFrac1, mCDD,
      mDot1, mDot2, mDot3, colon_isDigit, ha, hb, hd, he, hf, hg, bdA]
  | fr22 c2 a b d e f g h2 ha hb hd he hf hg =>
    simp [tryTs, hc, tsBase, tsExt, tsFrac3, tsFrac2, tsFrac1, mCDD,
      mDot1, mDot2, mDot3, h2, ha, hb, hd, he, hf, hg, bdA]
  | fr31 a b d e f g h ha hb hd he hf hg hh =>
    simp [tryTs, hc, tsBase, tsExt, tsFrac3, tsFrac2, tsFrac1, mCDD,
      mDot1, mDot2, mDot3, colon_isDigit, ha, hb, hd, he, hf, hg, hh, bdA]
  | fr32 c2 a b d e f g h h2 ha hb hd he hf hg hh =>
    simp [tryTs, hc, tsBase, tsExt, tsFrac3, tsFrac2, tsFrac1, mCDD,
      mDot1, mDot2, mDot3, h2, ha, hb, hd, he, hf, hg, hh, bdA]

example : clean_extracted_text "00:01:23.456 breaking news" = "breaking news" := by decide
example : clean_extracted_text "1<x>:30" = "1:30" := by decide
example : clean_extracted_text "1:30" = "" := by decide
example : clean_extracted_text "a   b\n c" = "a b c" := by decide
example : clean_extracted_text "12:34:56.789x" = ".789x" := by decide
example : clean_extracted_text "" = "" := by decide
example : clean_extracted_text "1:23 4:56" = "" := by decide
example : clean_extracted_text "123:45" = "123:45" := by decide
example : vtt_to_plaintext ["1", "00:00:01.000 --> 00:00:02.000", "Hello world", ""] = "Hello world" := by decide
example : evidence_prompt "" "" "" = "Please analyze the following news content and answer:\n- Is this news genuine (true) or false?\n- Provide reasons supporting your conclusion.\n\nNews content:\n" := by decide
example : (sampleFrames 2 0 [10, 20, 30, 40, 50]).map Prod.fst = [0, 2, 4] := by decide
example : detect_trigger_words [("en", ["Shocking", "fake", "Shocking"])] "A ShOcKiNg story" "fr" = ["Shocking"] := by decide

/-! ### Stability of the timestamp scanner: basic inversions -/

theorem isWord_not_digit {c : Char} (h : isWordChar c = false) :
    c.isDigit = false := by
  by_cases hd : c.isDigit
  · exact absurd (isDigit_isWord hd) (by simp [h])
  · simpa using hd

theorem tryTs_true_none (c : Char) (cs : List Char) : tryTs true c cs = none := by
  simp [tryTs]

theorem tryTs_not_digit {c : Char} (h : c.isDigit = false) (pw : Bool)
    (cs : List Char) : tryTs pw c cs = none := by
  simp [tryTs, h]

theorem tsGo_fuel :
    ∀ f (pw : Bool) (l : List Char), l.length ≤ f → tsGo f pw l = tsSub pw l := by
  intro f
  induction f using Nat.strong_induction_on with
  | _ f ih =>
    intro pw l hl
    cases l with
    | nil => simp [tsSub, tsGo_nil]
    | cons c cs =>
      cases f with
      | zero => simp at hl
      | succ n =>
        have hcs : cs.length ≤ n := by simp at hl; omega
        have hlen : tsSub pw (c :: cs) = tsGo (cs.length + 1) pw (c :: cs) := rfl
        rw [hlen]
        cases htry : tryTs pw c cs with
        | none =>
          simp only [tsGo, htry]
          rw [ih n (Nat.lt_succ_self n) _ cs hcs,
            ih cs.length (by omega) _ cs (Nat.le_refl _)]
        | some k =>
          simp only [tsGo, htry]
          have hd1 : (cs.drop k).length ≤ n := by
            simp only [List.length_drop]; omega
          have hd2 : (cs.drop k).length ≤ cs.length := by
            simp only [List.length_drop]; omega
          rw [ih n (Nat.lt_succ_self n) _ (cs.drop k) hd1,
            ih cs.length (by omega) _ (cs.drop k) hd2]

theorem mCDD_some {l r : List Char} (h : mCDD l = some r) :
    ∃ a b, l = ':' :: a :: b :: r ∧ a.isDigit = true ∧ b.isDigit = true := by
  rcases l with - | ⟨c, - | ⟨a, - | ⟨b, r'⟩⟩⟩
  · simp [mCDD] at h
  · simp [mCDD] at h
  · simp [mCDD] at h
  · simp only [mCDD] at h
    split at h
    · next hc =>
      simp only [Bool.and_eq_true, beq_iff_eq] at hc
      obtain ⟨⟨rfl, ha⟩, hb⟩ := hc
      injection h with hr
      subst hr
      exact ⟨a, b, rfl, ha, hb⟩
    · exact Option.noConfusion h

theorem mDot1_some {l r : List Char} (h : mDot1 l = some r) :
    ∃ a, l = '.' :: a :: r ∧ a.isDigit = true := by
  rcases l with - | ⟨c, - | ⟨a, r'⟩⟩
  · simp [mDot1] at h
  · simp [mDot1] at h
  · simp only [mDot1] at h
    split at h
    · next hc =>
      simp only [Bool.and_eq_true, beq_iff_eq] at hc
      obtain ⟨rfl, ha⟩ := hc
      injection h with hr
      subst hr
      exact ⟨a, rfl, ha⟩
    · exact Option.noConfusion h

theorem mDot2_some {l r : List Char} (h : mDot2 l = some r) :
    ∃ a b, l = '.' :: a :: b :: r ∧ a.isDigit = true ∧ b.isDigit = true := by
  rcases l with - | ⟨c, - | ⟨a, - | ⟨b, r'⟩⟩⟩
  · simp [mDot2] at h
  · simp [mDot2] at h
  · simp [mDot2] at h
  · simp only [mDot2] at h
    split at h
    · next hc =>
      simp only [Bool.and_eq_true, beq_iff_eq] at hc
      obtain ⟨⟨rfl, ha⟩, hb⟩ := hc
      injection h with hr
      subst hr
      exact ⟨a, b, rfl, ha, hb⟩
    · exact Option.noConfusion h

theorem mDot3_some {l r : List Char} (h : mDot3 l = some r) :
    ∃ a b d, l = '.' :: a :: b :: d :: r ∧ a.isDigit = true ∧ b.isDigit = true ∧
      d.isDigit = true := by
  rcases l with - | ⟨c, - | ⟨a, - | ⟨b, - | ⟨d, r'⟩⟩⟩⟩
  · simp [mDot3] at h
  · simp [mDot3] at h
  · simp [mDot3] at h
  · simp [mDot3] at h
  · simp only [mDot3] at h
    split at h
    · next hc =>
      simp only [Bool.and_eq_true, beq_iff_eq] at hc
      obtain ⟨⟨⟨rfl, ha⟩, hb⟩, hd⟩ := hc
      injection h with hr
      subst hr
      exact ⟨a, b, d, rfl, ha, hb, hd⟩
    · exact Option.noConfusion h

theorem tsBase_some {cs : List Char} {k : Nat} {r : List Char}
    (h : tsBase cs = some (k, r)) :
    (k = 3 ∧ ∃ a b, cs = ':' :: a :: b :: r ∧ a.isDigit = true ∧ b.isDigit = true) ∨
    (k = 4 ∧ ∃ c2 a b, cs = c2 :: ':' :: a :: b :: r ∧ c2.isDigit = true ∧
      a.isDigit = true ∧ b.isDigit = true) := by
  rcases cs with - | ⟨c2, rest⟩
  · simp [tsBase] at h
  · simp only [tsBase] at h
    by_cases hd : c2.isDigit
    · rw [if_pos hd] at h
      cases hm : mCDD rest with
      | none => rw [hm] at h; simp at h
      | some r2 =>
        rw [hm] at h
        simp only [Option.map, Option.some.injEq, Prod.mk.injEq] at h
        obtain ⟨hk, hr⟩ := h
        subst hr
        obtain ⟨a, b, hrest, ha, hb⟩ := mCDD_some hm
        exact Or.inr ⟨hk.symm, c2, a, b, by rw [hrest], hd, ha, hb⟩
    · rw [if_neg hd] at h
      cases hm : mCDD (c2 :: rest) with
      | none => rw [hm] at h; simp at h
      | some r2 =>
        rw [hm] at h
        simp only [Option.map, Option.some.injEq, Prod.mk.injEq] at h
        obtain ⟨hk, hr⟩ := h
        subst hr
        obtain ⟨a, b, hrest, ha, hb⟩ := mCDD_some hm
        exact Or.inl ⟨hk.symm, a, b, hrest, ha, hb⟩

theorem tsFrac1_some {r2 : List Char} {e : Nat} (h : tsFrac1 r2 = some e) :
    (e = 5 ∧ ∃ f r3, r2 = '.' :: f :: r3 ∧ f.isDigit = true ∧ bdA r3 = true) ∨
    (e = 3 ∧ bdA r2 = true) := by
  unfold tsFrac1 at h
  cases hm : mDot1 r2 with
  | some r3 =>
    simp only [hm] at h
    by_cases hb : bdA r3 = true
    · rw [if_pos hb] at h
      injection h with he
      obtain ⟨f, hr2, hf⟩ := mDot1_some hm
      exact Or.inl ⟨he.symm, f, r3, hr2, hf, hb⟩
    · rw [if_neg hb] at h
      by_cases hb2 : bdA r2 = true
      · rw [if_pos hb2] at h
        injection h with he
        exact Or.inr ⟨he.symm, hb2⟩
      · rw [if_neg hb2] at h
        exact Option.noConfusion h
  | none =>
    simp only [hm] at h
    by_cases hb2 : bdA r2 = true
    · rw [if_pos hb2] at h
      injection h with he
      exact Or.inr ⟨he.symm, hb2⟩
    · rw [if_neg hb2] at h
      exact Option.noConfusion h

theorem tsFrac2_some {r2 : List Char} {e : Nat} (h : tsFrac2 r2 = some e) :
    (e = 6 ∧ ∃ f g r3, r2 = '.' :: f :: g :: r3 ∧ f.isDigit = true ∧
      g.isDigit = true ∧ bdA r3 = true) ∨
    tsFrac1 r2 = some e := by
  unfold tsFrac2 at h
  cases hm : mDot2 r2 with
  | some r3 =>
    simp only [hm] at h
    by_cases hb : bdA r3 = true
    · rw [if_pos hb] at h
      injection h with he
      obtain ⟨f, g, hr2, hf, hg⟩ := mDot2_some hm
      exact Or.inl ⟨he.symm, f, g, r3, hr2, hf, hg, hb⟩
    · rw [if_neg hb] at h
      exact Or.inr h
  | none =>
    simp only [hm] at h
    exact Or.inr h

theorem tsFrac3_some {r2 : List Char} {e : Nat} (h : tsFrac3 r2 = some e) :
    (e = 7 ∧ ∃ f g j r3, r2 = '.' :: f :: g :: j :: r3 ∧ f.isDigit = true ∧
      g.isDigit = true ∧ j.isDigit = true ∧ bdA r3 = true) ∨
    tsFrac2 r2 = some e := by
  unfold tsFrac3 at h
  cases hm : mDot3 r2 with
  | some r3 =>
    simp only [hm] at h
    by_cases hb : bdA r3 = true
    · rw [if_pos hb] at h
      injection h with he
      obtain ⟨f, g, j, hr2, hf, hg, hj⟩ := mDot3_some hm
      exact Or.inl ⟨he.symm, f, g, j, r3, hr2, hf, hg, hj, hb⟩
    · rw [if_neg hb] at h
      exact Or.inr h
  | none =>
    simp only [hm] at h
    exact Or.inr h

theorem tsExt_some {r : List Char} {e : Nat} (h : tsExt r = some e) :
    (e = 0 ∧ bdA r = true) ∨
    (∃ d1 d2 r2, r = ':' :: d1 :: d2 :: r2 ∧ d1.isDigit = true ∧
      d2.isDigit = true ∧ tsFrac3 r2 = some e) := by
  unfold tsExt at h
  cases hm : mCDD r with
  | some r2 =>
    simp only [hm] at h
    cases hf : tsFrac3 r2 with
    | some n =>
      simp only [hf] at h
      injection h with he
      obtain ⟨d1, d2, hr, hd1, hd2⟩ := mCDD_some hm
      exact Or.inr ⟨d1, d2, r2, hr, hd1, hd2, by rw [hf, he]⟩
    | none =>
      simp only [hf] at h
      by_cases hb : bdA r = true
      · rw [if_pos hb] at h
        injection h with he
        exact Or.inl ⟨he.symm, hb⟩
      · rw [if_neg hb] at h
        exact Option.noConfusion h
  | none =>
    simp only [hm] at h
    by_cases hb : bdA r = true
    · rw [if_pos hb] at h
      injection h with he
      exact Or.inl ⟨he.symm, hb⟩
    · rw [if_neg hb] at h
      exact Option.noConfusion h

/-- Inversion of a successful timestamp match: the consumed characters
form a timestamp shape followed by a word boundary. -/
theorem tryTs_some {pw : Bool} {c : Char} {cs : List Char} {k : Nat}
    (h : tryTs pw c cs = some k) :
    pw = false ∧ c.isDigit = true ∧
    ∃ u r, cs = u ++ r ∧ TsShape u ∧ u.length = k ∧ bdA r = true := by
  cases pw with
  | true => rw [tryTs_true_none] at h; exact Option.noConfusion h
  | false =>
    by_cases hd : c.isDigit
    case neg =>
      rw [tryTs_not_digit (by simpa using hd)] at h
      exact Option.noConfusion h
    case pos =>
      refine ⟨rfl, hd, ?_⟩
      simp only [tryTs, hd, Bool.not_true, Bool.false_or, Bool.false_eq_true,
        if_false] at h
      cases hb : tsBase cs with
      | none => simp only [hb] at h; exact Option.noConfusion h
      | some p =>
        obtain ⟨k0, r⟩ := p
        simp only [hb] at h
        cases he : tsExt r with
        | none => rw [he] at h; simp at h
        | some e =>
          rw [he] at h
          simp at h
          rcases tsBase_some hb with ⟨hk0, a, b, hcs, ha, hb'⟩ |
            ⟨hk0, c2, a, b, hcs, h2, ha, hb'⟩
          · rcases tsExt_some he with ⟨he0, hbd⟩ | ⟨d1, d2, r2, hr, hd1, hd2, hf3⟩
            · exact ⟨[':', a, b], r, by rw [hcs]; rfl, TsShape.hm1 a b ha hb',
                by simp; omega, hbd⟩
            · rcases tsFrac3_some hf3 with
                ⟨he7, f, g, j, r3, hr2, hf, hg, hj, hb3⟩ | hf2
              · exact ⟨[':', a, b, ':', d1, d2, '.', f, g, j], r3,
                  by rw [hcs, hr, hr2]; rfl,
                  TsShape.fr31 a b d1 d2 f g j ha hb' hd1 hd2 hf hg hj,
                  by simp; omega, hb3⟩
              · rcases tsFrac2_some hf2 with ⟨he6, f, g, r3, hr2, hf, hg, hb3⟩ | hf1
                · exact ⟨[':', a, b, ':', d1, d2, '.', f, g], r3,
                    by rw [hcs, hr, hr2]; rfl,
                    TsShape.fr21 a b d1 d2 f g ha hb' hd1 hd2 hf hg,
                    by simp; omega, hb3⟩
                · rcases tsFrac1_some hf1 with ⟨he5, f, r3, hr2, hf, hb3⟩ | ⟨he3, hb2⟩
                  · exact ⟨[':', a, b, ':', d1, d2, '.', f], r3,
                      by rw [hcs, hr, hr2]; rfl,
                      TsShape.fr11 a b d1 d2 f ha hb' hd1 hd2 hf,
                      by simp; omega, hb3⟩
                  · exact ⟨[':', a, b, ':', d1, d2], r2, by rw [hcs, hr]; rfl,
                      TsShape.sec1 a b d1 d2 ha hb' hd1 hd2,
                      by simp; omega, hb2⟩
          · rcases tsExt_some he with ⟨he0, hbd⟩ | ⟨d1, d2, r2, hr, hd1, hd2, hf3⟩
            · exact ⟨[c2, ':', a, b], r, by rw [hcs]; rfl,
                TsShape.hm2 c2 a b h2 ha hb', by simp; omega, hbd⟩
            · rcases tsFrac3_some hf3 with
                ⟨he7, f, g, j, r3, hr2, hf, hg, hj, hb3⟩ | hf2
              · exact ⟨[c2, ':', a, b, ':', d1, d2, '.', f, g, j], r3,
                  by rw [hcs, hr, hr2]; rfl,
                  TsShape.fr32 c2 a b d1 d2 f g j h2 ha hb' hd1 hd2 hf hg hj,
                  by simp; omega, hb3⟩
              · rcases tsFrac2_some hf2 with ⟨he6, f, g, r3, hr2, hf, hg, hb3⟩ | hf1
                · exact ⟨[c2, ':', a, b, ':', d1, d2, '.', f, g], r3,
                    by rw [hcs, hr, hr2]; rfl,
                    TsShape.fr22 c2 a b d1 d2 f g h2 ha hb' hd1 hd2 hf hg,
                    by simp; omega, hb3⟩
                · rcases tsFrac1_some hf1 with ⟨he5, f, r3, hr2, hf, hb3⟩ | ⟨he3, hb2⟩
                  · exact ⟨[c2, ':', a, b, ':', d1, d2, '.', f], r3,
                      by rw [hcs, hr, hr2]; rfl,
                      TsShape.fr12 c2 a b d1 d2 f h2 ha hb' hd1 hd2 hf,
                      by simp; omega, hb3⟩
                  · exact ⟨[c2, ':', a, b, ':', d1, d2], r2, by rw [hcs, hr]; rfl,
                      TsShape.sec2 c2 a b d1 d2 h2 ha hb' hd1 hd2,
                      by simp; omega, hb2⟩

theorem tsFrac1_isSome {r2 : List Char} (h : bdA r2 = true) :
    ∃ n, tsFrac1 r2 = some n := by
  unfold tsFrac1
  cases hm : mDot1 r2 with
  | some r3 =>
    by_cases hb : bdA r3 = true
    · exact ⟨5, by simp [hb]⟩
    · exact ⟨3, by simp [hb, h]⟩
  | none => exact ⟨3, by simp [h]⟩

theorem tsFrac2_isSome {r2 : List Char} (h : bdA r2 = true) :
    ∃ n, tsFrac2 r2 = some n := by
  unfold tsFrac2
  cases hm : mDot2 r2 with
  | some r3 =>
    by_cases hb : bdA r3 = true
    · exact ⟨6, by simp [hb]⟩
    · obtain ⟨n, hn⟩ := tsFrac1_isSome h
      exact ⟨n, by simp [hb, hn]⟩
  | none =>
    obtain ⟨n, hn⟩ := tsFrac1_isSome h
    exact ⟨n, hn⟩

theorem tsFrac3_isSome {r2 : List Char} (h : bdA r2 = true) :
    ∃ n, tsFrac3 r2 = some n := by
  unfold tsFrac3
  cases hm : mDot3 r2 with
  | some r3 =>
    by_cases hb : bdA r3 = true
    · exact ⟨7, by simp [hb]⟩
    · obtain ⟨n, hn⟩ := tsFrac2_isSome h
      exact ⟨n, by simp [hb, hn]⟩
  | none =>
    obtain ⟨n, hn⟩ := tsFrac2_isSome h
    exact ⟨n, hn⟩

theorem tsExt_isSome {r : List Char} (h : bdA r = true) :
    ∃ n, tsExt r = some n := by
  cases hm : mCDD r with
  | some r2 =>
    cases hf : tsFrac3 r2 with
    | some n => exact ⟨n, by simp [tsExt, hm, hf]⟩
    | none => exact ⟨0, by simp [tsExt, hm, hf, h]⟩
  | none => exact ⟨0, by simp [tsExt, hm, h]⟩

theorem tsExt_colon_isSome {d e : Char} {r2 : List Char} (hd : d.isDigit = true)
    (he : e.isDigit = true) (h : bdA r2 = true) :
    ∃ n, tsExt (':' :: d :: e :: r2) = some n := by
  have hm : mCDD (':' :: d :: e :: r2) = some r2 := by simp [mCDD, hd, he]
  obtain ⟨n, hn⟩ := tsFrac3_isSome h
  exact ⟨n, by simp [tsExt, hm, hn]⟩

/-- A timestamp shape followed by a word boundary always matches. -/
theorem tryTs_shape {c : Char} {u r : List Char} (hc : c.isDigit = true)
    (hu : TsShape u) (hr : bdA r = true) :
    ∃ k, tryTs false c (u ++ r) = some k := by
  cases hu with
  | hm1 a b ha hb =>
    obtain ⟨n, hn⟩ := tsExt_isSome hr
    exact ⟨3 + n, by simp [tryTs, hc, tsBase, mCDD, colon_isDigit, ha, hb, hn]⟩
  | hm2 c2 a b h2 ha hb =>
    obtain ⟨n, hn⟩ := tsExt_isSome hr
    exact ⟨4 + n, by simp [tryTs, hc, tsBase, mCDD, h2, ha, hb, hn]⟩
  | sec1 a b d e ha hb hd he =>
    obtain ⟨n, hn⟩ := tsExt_colon_isSome hd he hr
    exact ⟨3 + n, by simp [tryTs, hc, tsBase, mCDD, colon_isDigit, ha, hb, hn]⟩
  | sec2 c2 a b d e h2 ha hb hd he =>
    obtain ⟨n, hn⟩ := tsExt_colon_isSome hd he hr
    exact ⟨4 + n, by simp [tryTs, hc, tsBase, mCDD, h2, ha, hb, hn]⟩
  | fr11 a b d e f ha hb hd he hf =>
    obtain ⟨n, hn⟩ := tsExt_colon_isSome hd he
      (show bdA ('.' :: f :: r) = true by simp [bdA, dot_isWord])
    exact ⟨3 + n, by simp [tryTs, hc, tsBase, mCDD, colon_isDigit, ha, hb, hn]⟩
  | fr12 c2 a b d e f h2 ha hb hd he hf =>
    obtain ⟨n, hn⟩ := tsExt_colon_isSome hd he
      (show bdA ('.' :: f :: r) = true by simp [bdA, dot_isWord])
    exact ⟨4 + n, by simp [tryTs, hc, tsBase, mCDD, h2, ha, hb, hn]⟩
  | fr21 a b d e f g ha hb hd he hf hg =>
    obtain ⟨n, hn⟩ := tsExt_colon_isSome hd he
      (show bdA ('.' :: f :: g :: r) = true by simp [bdA, dot_isWord])
    exact ⟨3 + n, by simp [tryTs, hc, tsBase, mCDD, colon_isDigit, ha, hb, hn]⟩
  | fr22 c2 a b d e f g h2 ha hb hd he hf hg =>
    obtain ⟨n, hn⟩ := tsExt_colon_isSome hd he
      (show bdA ('.' :: f :: g :: r) = true by simp [bdA, dot_isWord])
    exact ⟨4 + n, by simp [tryTs, hc, tsBase, mCDD, h2, ha, hb, hn]⟩
  | fr31 a b d e f g h ha hb hd he hf hg hh =>
    obtain ⟨n, hn⟩ := tsExt_colon_isSome hd he
      (show bdA ('.' :: f :: g :: h :: r) = true by simp [bdA, dot_isWord])
    exact ⟨3 + n, by simp [tryTs, hc, tsBase, mCDD, colon_isDigit, ha, hb, hn]⟩
  | fr32 c2 a b d e f g h h2 ha hb hd he hf hg hh =>
    obtain ⟨n, hn⟩ := tsExt_colon_isSome hd he
      (show bdA ('.' :: f :: g :: h :: r) = true by simp [bdA, dot_isWord])
    exact ⟨4 + n, by simp [tryTs, hc, tsBase, mCDD, h2, ha, hb, hn]⟩

/-- Every timestamp shape ends in a digit. -/
theorem tsShape_last {u : List Char} (h : TsShape u) :
    ∃ u' d, u = u' ++ [d] ∧ d.isDigit = true := by
  cases h with
  | hm1 a b ha hb => exact ⟨[':', a], b, rfl, hb⟩
  | hm2 c2 a b h2 ha hb => exact ⟨[c2, ':', a], b, rfl, hb⟩
  | sec1 a b d e ha hb hd he => exact ⟨[':', a, b, ':', d], e, rfl, he⟩
  | sec2 c2 a b d e h2 ha hb hd he => exact ⟨[c2, ':', a, b, ':', d], e, rfl, he⟩
  | fr11 a b d e f ha hb hd he hf =>
    exact ⟨[':', a, b, ':', d, e, '.'], f, rfl, hf⟩
  | fr12 c2 a b d e f h2 ha hb hd he hf =>
    exact ⟨[c2, ':', a, b, ':', d, e, '.'], f, rfl, hf⟩
  | fr21 a b d e f g ha hb hd he hf hg =>
    exact ⟨[':', a, b, ':', d, e, '.', f], g, rfl, hg⟩
  | fr22 c2 a b d e f g h2 ha hb hd he hf hg =>
    exact ⟨[c2, ':', a, b, ':', d, e, '.', f], g, rfl, hg⟩
  | fr31 a b d e f g h ha hb hd he hf hg hh =>
    exact ⟨[':', a, b, ':', d, e, '.', f, g], h, rfl, hh⟩
  | fr32 c2 a b d e f g h h2 ha hb hd he hf hg hh =>
    exact ⟨[c2, ':', a, b, ':', d, e, '.', f, g], h, rfl, hh⟩

/-- In a timestamp shape, no two adjacent characters are both non-word
characters (the punctuation `:` and `.` is always separated by digits). -/
theorem tsShape_chain {u : List Char} (h : TsShape u) :
    u.Chain' (fun p q => isWordChar p = true ∨ isWordChar q = true) := by
  cases h with
  | hm1 a b ha hb =>
    simp [List.chain'_cons, isDigit_isWord ha, isDigit_isWord hb]
  | hm2 c2 a b h2 ha hb =>
    simp [List.chain'_cons, isDigit_isWord h2, isDigit_isWord ha,
      isDigit_isWord hb]
  | sec1 a b d e ha hb hd he =>
    simp [List.chain'_cons, isDigit_isWord ha, isDigit_isWord hb,
      isDigit_isWord hd, isDigit_isWord he]
  | sec2 c2 a b d e h2 ha hb hd he =>
    simp [List.chain'_cons, isDigit_isWord h2, isDigit_isWord ha,
      isDigit_isWord hb, isDigit_isWord hd, isDigit_isWord he]
  | fr11 a b d e f ha hb hd he hf =>
    simp [List.chain'_cons, isDigit_isWord ha, isDigit_isWord hb,
      isDigit_isWord hd, isDigit_isWord he, isDigit_isWord hf]
  | fr12 c2 a b d e f h2 ha hb hd he hf =>
    simp [List.chain'_cons, isDigit_isWord h2, isDigit_isWord ha,
      isDigit_isWord hb, isDigit_isWord hd, isDigit_isWord he,
      isDigit_isWord hf]
  | fr21 a b d e f g ha hb hd he hf hg =>
    simp [List.chain'_cons, isDigit_isWord ha, isDigit_isWord hb,
      isDigit_isWord hd, isDigit_isWord he, isDigit_isWord hf,
      isDigit_isWord hg]
  | fr22 c2 a b d e f g h2 ha hb hd he hf hg =>
    simp [List.chain'_cons, isDigit_isWord h2, isDigit_isWord ha,
      isDigit_isWord hb, isDigit_isWord hd, isDigit_isWord he,
      isDigit_isWord hf, isDigit_isWord hg]
  | fr31 a b d e f g h ha hb hd he hf hg hh =>
    simp [List.chain'_cons, isDigit_isWord ha, isDigit_isWord hb,
      isDigit_isWord hd, isDigit_isWord he, isDigit_isWord hf,
      isDigit_isWord hg, isDigit_isWord hh]
  | fr32 c2 a b d e f g h h2 ha hb hd he hf hg hh =>
    simp [List.chain'_cons, isDigit_isWord h2, isDigit_isWord ha,
      isDigit_isWord hb, isDigit_isWord hd, isDigit_isWord he,
      isDigit_isWord hf, isDigit_isWord hg, isDigit_isWord hh]

theorem prevW_nil (pw : Bool) : prevW pw [] = pw := rfl

theorem prevW_cons (pw : Bool) (c : Char) (pre : List Char) :
    prevW pw (c :: pre) = prevW (isWordChar c) pre := by
  cases pre with
  | nil => simp [prevW]
  | cons d pre' =>
    simp only [prevW, List.getLast?_cons_cons]
    cases hg : (d :: pre').getLast? with
    | none => simp at hg
    | some x => rfl

theorem prevW_false {pw : Bool} {pre : List Char} (h : prevW pw pre = false) :
    (pre = [] ∧ pw = false) ∨
    ∃ pre' dl, pre = pre' ++ [dl] ∧ isWordChar dl = false := by
  induction pre using List.reverseRecOn with
  | nil => exact Or.inl ⟨rfl, by simpa [prevW] using h⟩
  | append_singleton l a ih =>
    refine Or.inr ⟨l, a, rfl, ?_⟩
    have hg : (l ++ [a]).getLast? = some a := by simp
    simpa [prevW, hg] using h

/-- First-match decomposition of a full scan: either nothing matches and
the scan is the identity, or the string splits at the leftmost match. -/
theorem tsSub_split (pw : Bool) (l : List Char) :
    tsSub pw l = l ∨
    ∃ pre c rest k, l = pre ++ c :: rest ∧
      tryTs (prevW pw pre) c rest = some k ∧
      tsSub pw l = pre ++ tsSub true (rest.drop k) := by
  induction l generalizing pw with
  | nil => exact Or.inl rfl
  | cons c cs ih =>
    have hstep : tsSub pw (c :: cs) = tsGo (cs.length + 1) pw (c :: cs) := rfl
    cases htry : tryTs pw c cs with
    | some k =>
      refine Or.inr ⟨[], c, cs, k, rfl, by rw [prevW_nil]; exact htry, ?_⟩
      rw [hstep]
      simp only [tsGo, htry]
      rw [tsGo_fuel cs.length true (cs.drop k)
        (by simp only [List.length_drop]; omega)]
      rfl
    | none =>
      have hout : tsSub pw (c :: cs) = c :: tsSub (isWordChar c) cs := by
        rw [hstep]
        simp only [tsGo, htry]
        rw [tsGo_fuel cs.length (isWordChar c) cs (Nat.le_refl _)]
      rcases ih (isWordChar c) with heq | ⟨pre, c0, rest, k, hcs, htry0, hout0⟩
      · exact Or.inl (by rw [hout, heq])
      · refine Or.inr ⟨c :: pre, c0, rest, k, by rw [hcs]; rfl, ?_, ?_⟩
        · rw [prevW_cons]; exact htry0
        · rw [hout, hout0]; rfl

/-- The scanner preserves a leading word boundary. -/
theorem tsSub_bdA {l : List Char} (h : bdA l = true) (pw : Bool) :
    bdA (tsSub pw l) = true := by
  cases l with
  | nil => simp [tsSub, tsGo_nil, bdA]
  | cons c cs =>
    have hw : isWordChar c = false := by simpa [bdA] using h
    have hnd : c.isDigit = false := isWord_not_digit hw
    have hu : tsSub pw (c :: cs) = c :: tsSub (isWordChar c) cs := by
      show tsGo (cs.length + 1) pw (c :: cs) = _
      simp only [tsGo, tryTs_not_digit hnd]
      rw [tsGo_fuel cs.length (isWordChar c) cs (Nat.le_refl _)]
    rw [hu]
    simpa [bdA] using h

/-- Kernel stability lemma: if no timestamp matches at the current
position, then none matches there after the rest of the string has been
scanned (removals further right cannot create a match anchored here:
a fresh match would have to end exactly at a removal junction — impossible
because shapes end in digits while the character before a removed match is
a non-word character — or to span the junction — impossible because the
two characters at a junction are both non-word characters and shapes never
contain two adjacent non-word characters — or to lie entirely before the
junction, in which case it already matched in the original string). -/
theorem tryTs_none_stable {pw : Bool} {c : Char} {cs : List Char}
    (h : tryTs pw c cs = none) :
    tryTs pw c (tsSub (isWordChar c) cs) = none := by
  cases pw with
  | true => exact tryTs_true_none c _
  | false =>
    by_cases hd : c.isDigit
    case neg => exact tryTs_not_digit (by simpa using hd) false _
    case pos =>
      have hw : isWordChar c = true := isDigit_isWord hd
      rw [hw]
      rcases tsSub_split true cs with heq | ⟨pre, c0, rest, k, hcs, htry, hout⟩
      · rw [heq]; exact h
      · rw [hout]
        cases hres : tryTs false c (pre ++ tsSub true (rest.drop k)) with
        | none => rfl
        | some m =>
          exfalso
          obtain ⟨-, -, u, r, happ, hshape, hlen, hbd⟩ := tryTs_some hres
          obtain ⟨hpw0, -, u0, r0, hrest, hshape0, hlen0, hbd0⟩ := tryTs_some htry
          rcases prevW_false hpw0 with ⟨-, hfalse⟩ | ⟨pre', dl, hpre, hdl⟩
          · exact Bool.noConfusion hfalse
          have hdropk : rest.drop k = r0 := by
            rw [hrest, ← hlen0, List.drop_left]
          have hX : bdA (tsSub true (rest.drop k)) = true := by
            rw [hdropk]; exact tsSub_bdA hbd0 true
          rcases List.append_eq_append_iff.mp happ with ⟨a', hu, hXr⟩ | ⟨c', hpre2, hr⟩
          · cases a' with
            | nil =>
              rw [List.append_nil] at hu
              obtain ⟨u', dfin, hu2, hdfin⟩ := tsShape_last hshape
              have h1 : pre' ++ [dl] = u' ++ [dfin] := by
                rw [← hpre, ← hu, hu2]
              have h2 : dl = dfin := by
                have h3 := congrArg List.getLast? h1
                simpa using h3
              rw [h2, isDigit_isWord hdfin] at hdl
              exact Bool.noConfusion hdl
            | cons x a'' =>
              have hwx : isWordChar x = false := by
                rw [hXr] at hX; simpa [bdA] using hX
              have hch := tsShape_chain hshape
              rw [hu, hpre] at hch
              have h3 := (List.chain'_append.mp hch).2.2
              have h4 := h3 dl (by simp) x (by simp)
              rcases h4 with h5 | h5
              · rw [hdl] at h5; exact Bool.noConfusion h5
              · rw [hwx] at h5; exact Bool.noConfusion h5
          · cases c' with
            | nil =>
              rw [List.append_nil] at hpre2
              obtain ⟨u', dfin, hu2, hdfin⟩ := tsShape_last hshape
              have h1 : pre' ++ [dl] = u' ++ [dfin] := by
                rw [← hpre, hpre2, hu2]
              have h2 : dl = dfin := by
                have h3 := congrArg List.getLast? h1
                simpa using h3
              rw [h2, isDigit_isWord hdfin] at hdl
              exact Bool.noConfusion hdl
            | cons y c'' =>
              have hwy : isWordChar y = false := by
                rw [hr] at hbd; simpa [bdA] using hbd
              have hb2 : bdA (y :: (c'' ++ c0 :: rest)) = true := by
                simp [bdA, hwy]
              obtain ⟨k2, hk2⟩ := tryTs_shape hd hshape hb2
              have hcs2 : cs = u ++ (y :: (c'' ++ c0 :: rest)) := by
                rw [hcs, hpre2]
                simp [List.append_assoc]
              rw [← hcs2, h] at hk2
              exact Option.noConfusion hk2

theorem noTsB_pw_irrel {l : List Char} (h : bdA l = true) (p q : Bool) :
    noTsB p l = noTsB q l := by
  cases l with
  | nil => rfl
  | cons c cs =>
    have hw : isWordChar c = false := by simpa [bdA] using h
    have hnd := isWord_not_digit hw
    simp [noTsB, tryTs_not_digit hnd]

/-- Main stability theorem: after one full scan, no position of the
output starts a timestamp match. -/
theorem noTsB_tsSub : ∀ n (pw : Bool) (l : List Char), l.length ≤ n →
    noTsB pw (tsSub pw l) = true := by
  intro n
  induction n with
  | zero =>
    intro pw l h
    have hl : l = [] := List.eq_nil_of_length_eq_zero (Nat.le_zero.mp h)
    subst hl; rfl
  | succ n ih =>
    intro pw l hl
    cases l with
    | nil => rfl
    | cons c cs =>
      have hcs : cs.length ≤ n := by simp at hl; omega
      cases htry : tryTs pw c cs with
      | some k =>
        have hout : tsSub pw (c :: cs) = tsSub true (cs.drop k) := by
          show tsGo (cs.length + 1) pw (c :: cs) = _
          simp only [tsGo, htry]
          exact tsGo_fuel cs.length true (cs.drop k)
            (by simp only [List.length_drop]; omega)
        rw [hout]
        obtain ⟨-, -, u, r, happ, hsh, hlen, hbd⟩ := tryTs_some htry
        have hdropk : cs.drop k = r := by rw [happ, ← hlen, List.drop_left]
        have hX : bdA (tsSub true (cs.drop k)) = true := by
          rw [hdropk]; exact tsSub_bdA hbd true
        rw [noTsB_pw_irrel hX pw true]
        exact ih true (cs.drop k) (by simp only [List.length_drop]; omega)
      | none =>
        have hout : tsSub pw (c :: cs) = c :: tsSub (isWordChar c) cs := by
          show tsGo (cs.length + 1) pw (c :: cs) = _
          simp only [tsGo, htry]
          rw [tsGo_fuel cs.length (isWordChar c) cs (Nat.le_refl _)]
        rw [hout]
        simp only [noTsB, Bool.and_eq_true]
        constructor
        · rw [tryTs_none_stable htry]; rfl
        · exact ih (isWordChar c) cs hcs

/-- A string with no matches anywhere scans to itself. -/
theorem noTsB_id : ∀ (l : List Char) (pw : Bool), noTsB pw l = true →
    tsSub pw l = l := by
  intro l
  induction l with
  | nil => intro pw h; rfl
  | cons c cs ih =>
    intro pw h
    simp only [noTsB, Bool.and_eq_true, Option.isNone_iff_eq_none] at h
    obtain ⟨h1, h2⟩ := h
    show tsGo (cs.length + 1) pw (c :: cs) = c :: cs
    simp only [tsGo, h1]
    rw [tsGo_fuel cs.length (isWordChar c) cs (Nat.le_refl _), ih _ h2]

/-! ### Scanning does not look past whitespace -/

theorem space_cases {y : Char} (h : pyIsSpace y = true) :
    y = ' ' ∨ y = '\t' ∨ y = '\n' ∨ y = '\r' ∨ y = '\x0b' ∨ y = '\x0c' := by
  simpa [pyIsSpace, beq_iff_eq, or_assoc] using h

theorem space_not_digit {y : Char} (h : pyIsSpace y = true) :
    y.isDigit = false := by
  rcases space_cases h with rfl | rfl | rfl | rfl | rfl | rfl <;> decide

theorem space_ne_colon {y : Char} (h : pyIsSpace y = true) : y ≠ ':' := by
  rcases space_cases h with rfl | rfl | rfl | rfl | rfl | rfl <;> decide

theorem space_ne_dot {y : Char} (h : pyIsSpace y = true) : y ≠ '.' := by
  rcases space_cases h with rfl | rfl | rfl | rfl | rfl | rfl <;> decide

theorem space_not_word {y : Char} (h : pyIsSpace y = true) :
    isWordChar y = false := by
  rcases space_cases h with rfl | rfl | rfl | rfl | rfl | rfl <;> decide

theorem bdA_space_append {s r : List Char} (hr : spaceHeaded r) :
    bdA (s ++ r) = bdA s := by
  cases s with
  | nil =>
    rcases hr with rfl | ⟨y, ys, rfl, hy⟩
    · rfl
    · simp [bdA, space_not_word hy]
  | cons x s' => rfl

theorem mCDD_space_append {s r : List Char} (hr : spaceHeaded r) :
    mCDD (s ++ r) = Option.map (fun t => t ++ r) (mCDD s) := by
  rcases hr with rfl | ⟨y, ys, rfl, hy⟩
  · simp
  · rcases s with - | ⟨x1, - | ⟨x2, - | ⟨x3, s'⟩⟩⟩
    · rcases ys with - | ⟨a2, - | ⟨b2, r2⟩⟩
      · rfl
      · rfl
      · show mCDD (y :: a2 :: b2 :: r2) = none
        simp [mCDD, space_ne_colon hy]
    · rcases ys with - | ⟨a2, r2⟩
      · rfl
      · show mCDD (x1 :: y :: a2 :: r2) = none
        simp [mCDD, space_not_digit hy]
    · show mCDD (x1 :: x2 :: y :: ys) = none
      simp [mCDD, space_not_digit hy]
    · show mCDD (x1 :: x2 :: x3 :: (s' ++ y :: ys)) =
        Option.map (fun t => t ++ y :: ys) (mCDD (x1 :: x2 :: x3 :: s'))
      by_cases hc : ((x1 == ':') && x2.isDigit && x3.isDigit) = true
      · simp [mCDD, hc]
      · simp [mCDD, hc]

theorem mDot1_space_append {s r : List Char} (hr : spaceHeaded r) :
    mDot1 (s ++ r) = Option.map (fun t => t ++ r) (mDot1 s) := by
  rcases hr with rfl | ⟨y, ys, rfl, hy⟩
  · simp
  · rcases s with - | ⟨x1, s'⟩
    · rcases ys with - | ⟨a2, r2⟩
      · rfl
      · show mDot1 (y :: a2 :: r2) = none
        simp [mDot1, space_ne_dot hy]
    · rcases s' with - | ⟨x2, s''⟩
      · show mDot1 (x1 :: y :: ys) = none
        simp [mDot1, space_not_digit hy]
      · show mDot1 (x1 :: x2 :: (s'' ++ y :: ys)) =
          Option.map (fun t => t ++ y :: ys) (mDot1 (x1 :: x2 :: s''))
        by_cases hc : ((x1 == '.') && x2.isDigit) = true
        · simp [mDot1, hc]
        · simp [mDot1, hc]

theorem mDot2_space_append {s r : List Char} (hr : spaceHeaded r) :
    mDot2 (s ++ r) = Option.map (fun t => t ++ r) (mDot2 s) := by
  rcases hr with rfl | ⟨y, ys, rfl, hy⟩
  · simp
  · rcases s with - | ⟨x1, - | ⟨x2, - | ⟨x3, s'⟩⟩⟩
    · rcases ys with - | ⟨a2, - | ⟨b2, r2⟩⟩
      · rfl
      · rfl
      · show mDot2 (y :: a2 :: b2 :: r2) = none
        simp [mDot2, space_ne_dot hy]
    · rcases ys with - | ⟨a2, r2⟩
      · rfl
      · show mDot2 (x1 :: y :: a2 :: r2) = none
        simp [mDot2, space_not_digit hy]
    · show mDot2 (x1 :: x2 :: y :: ys) = none
      simp [mDot2, space_not_digit hy]
    · show mDot2 (x1 :: x2 :: x3 :: (s' ++ y :: ys)) =
        Option.map (fun t => t ++ y :: ys) (mDot2 (x1 :: x2 :: x3 :: s'))
      by_cases hc : ((x1 == '.') && x2.isDigit && x3.isDigit) = true
      · simp [mDot2, hc]
      · simp [mDot2, hc]

theorem mDot3_space_append {s r : List Char} (hr : spaceHeaded r) :
    mDot3 (s ++ r) = Option.map (fun t => t ++ r) (mDot3 s) := by
  rcases hr with rfl | ⟨y, ys, rfl, hy⟩
  · simp
  · rcases s with - | ⟨x1, - | ⟨x2, - | ⟨x3, - | ⟨x4, s'⟩⟩⟩⟩
    · rcases ys with - | ⟨a2, - | ⟨b2, - | ⟨c2, r2⟩⟩⟩
      · rfl
      · rfl
      · rfl
      · show mDot3 (y :: a2 :: b2 :: c2 :: r2) = none
        simp [mDot3, space_ne_dot hy]
    · rcases ys with - | ⟨a2, - | ⟨b2, r2⟩⟩
      · rfl
      · rfl
      · show mDot3 (x1 :: y :: a2 :: b2 :: r2) = none
        simp [mDot3, space_not_digit hy]
    · rcases ys with - | ⟨a2, r2⟩
      · rfl
      · show mDot3 (x1 :: x2 :: y :: a2 :: r2) = none
        simp [mDot3, space_not_digit hy]
    · show mDot3 (x1 :: x2 :: x3 :: y :: ys) = none
      simp [mDot3, space_not_digit hy]
    · show mDot3 (x1 :: x2 :: x3 :: x4 :: (s' ++ y :: ys)) =
        Option.map (fun t => t ++ y :: ys) (mDot3 (x1 :: x2 :: x3 :: x4 :: s'))
      by_cases hc : ((x1 == '.') && x2.isDigit && x3.isDigit && x4.isDigit) = true
      · simp [mDot3, hc]
      · simp [mDot3, hc]

theorem tsFrac1_space_append {s r : List Char} (hr : spaceHeaded r) :
    tsFrac1 (s ++ r) = tsFrac1 s := by
  unfold tsFrac1
  rw [mDot1_space_append hr]
  cases hm : mDot1 s with
  | none => simp [bdA_space_append hr]
  | some r3 => simp [bdA_space_append hr]

theorem tsFrac2_space_append {s r : List Char} (hr : spaceHeaded r) :
    tsFrac2 (s ++ r) = tsFrac2 s := by
  unfold tsFrac2
  rw [mDot2_space_append hr]
  cases hm : mDot2 s with
  | none => simp [tsFrac1_space_append hr]
  | some r3 => simp [bdA_space_append hr, tsFrac1_space_append hr]

theorem tsFrac3_space_append {s r : List Char} (hr : spaceHeaded r) :
    tsFrac3 (s ++ r) = tsFrac3 s := by
  unfold tsFrac3
  rw [mDot3_space_append hr]
  cases hm : mDot3 s with
  | none => simp [tsFrac2_space_append hr]
  | some r3 => simp [bdA_space_append hr, tsFrac2_space_append hr]

theorem tsExt_space_append {s r : List Char} (hr : spaceHeaded r) :
    tsExt (s ++ r) = tsExt s := by
  unfold tsExt
  rw [mCDD_space_append hr]
  cases hm : mCDD s with
  | none => simp [bdA_space_append hr]
  | some r2 => simp [tsFrac3_space_append hr, bdA_space_append hr]

theorem tsBase_space_append {s r : List Char} (hr : spaceHeaded r) :
    tsBase (s ++ r) = Option.map (fun p => (p.1, p.2 ++ r)) (tsBase s) := by
  cases s with
  | nil =>
    rcases hr with rfl | ⟨y, ys, rfl, hy⟩
    · rfl
    · have h0 : mCDD (y :: ys) = none := by
        have := mCDD_space_append (s := ([] : List Char))
          (Or.inr ⟨y, ys, rfl, hy⟩)
        simpa using this
      simp [tsBase, space_not_digit hy, h0]
  | cons c2 s' =>
    show tsBase (c2 :: (s' ++ r)) = _
    by_cases hd : c2.isDigit
    · simp only [tsBase, hd, if_true, mCDD_space_append hr]
      cases hm : mCDD s' <;> simp
    · simp only [tsBase, hd, if_false]
      have : mCDD (c2 :: s' ++ r) = Option.map (fun t => t ++ r) (mCDD (c2 :: s')) :=
        mCDD_space_append hr
      rw [show c2 :: (s' ++ r) = (c2 :: s') ++ r from rfl, this]
      cases hm : mCDD (c2 :: s') <;> simp

/-- The timestamp matcher never looks past trailing whitespace: matching
against a segment followed by whitespace equals matching against the
segment alone. -/
theorem tryTs_space_append {pw : Bool} {c : Char} {s r : List Char}
    (hr : spaceHeaded r) : tryTs pw c (s ++ r) = tryTs pw c s := by
  unfold tryTs
  by_cases hcond : (pw || !c.isDigit) = true
  · simp [hcond]
  · simp only [hcond, if_false]
    rw [tsBase_space_append hr]
    cases hb : tsBase s with
    | none => rfl
    | some p =>
      obtain ⟨k0, rem⟩ := p
      simp [tsExt_space_append hr]

theorem segs_cons (l : List Char) : ∃ s ss, segs l = s :: ss := by
  induction l with
  | nil => exact ⟨[], [], rfl⟩
  | cons c cs ih =>
    by_cases h : pyIsSpace c = true
    · exact ⟨[], segs cs, by simp [segs, h]⟩
    · obtain ⟨s, ss, hseg⟩ := ih
      exact ⟨c :: s, ss, by simp [segs, h, hseg]⟩

theorem segs_decomp : ∀ (l s : List Char) (ss : List (List Char)),
    segs l = s :: ss → ∃ r, l = s ++ r ∧ spaceHeaded r := by
  intro l
  induction l with
  | nil =>
    intro s ss h
    simp only [segs] at h
    injection h with h1 h2
    subst h1
    exact ⟨[], rfl, Or.inl rfl⟩
  | cons c cs ih =>
    intro s ss h
    by_cases hsp : pyIsSpace c = true
    · simp only [segs, hsp, if_true] at h
      injection h with h1 h2
      subst h1
      exact ⟨c :: cs, rfl, Or.inr ⟨c, cs, rfl, hsp⟩⟩
    · obtain ⟨s', ss', hseg⟩ := segs_cons cs
      simp only [segs, hsp, if_false, hseg] at h
      injection h with h1 h2
      subst h1
      obtain ⟨r, hr1, hr2⟩ := ih s' ss' hseg
      exact ⟨r, by rw [hr1]; rfl, hr2⟩

/-- Scanning is clean iff it is clean on every whitespace-separated
segment (the first segment keeps the ambient context flag). -/
theorem noTsB_segs : ∀ (l : List Char) (pw : Bool) (s : List Char)
    (ss : List (List Char)), segs l = s :: ss →
    (noTsB pw l = true ↔
      (noTsB pw s = true ∧ ∀ t ∈ ss, noTsB false t = true)) := by
  intro l
  induction l with
  | nil =>
    intro pw s ss h
    simp only [segs] at h
    injection h with h1 h2
    subst h1; subst h2
    simp [noTsB]
  | cons c cs ih =>
    intro pw s ss h
    by_cases hsp : pyIsSpace c = true
    · simp only [segs, hsp, if_true] at h
      injection h with h1 h2
      subst h1; subst h2
      have ht : tryTs pw c cs = none :=
        tryTs_not_digit (space_not_digit hsp) pw cs
      have hwc : isWordChar c = false := space_not_word hsp
      obtain ⟨s', ss', hseg⟩ := segs_cons cs
      have hiff := ih false s' ss' hseg
      simp only [noTsB, ht, Option.isNone_none, Bool.true_and, hwc]
      constructor
      · intro hl
        refine ⟨trivial, fun t htm => ?_⟩
        rw [hseg] at htm
        rcases List.mem_cons.mp htm with rfl | htm'
        · exact (hiff.mp hl).1
        · exact (hiff.mp hl).2 t htm'
      · rintro ⟨-, hall⟩
        refine hiff.mpr ⟨?_, ?_⟩
        · exact hall s' (by rw [hseg]; exact List.mem_cons_self _ _)
        · intro t htm
          exact hall t (by rw [hseg]; exact List.mem_cons_of_mem _ htm)
    · obtain ⟨s', ss', hseg⟩ := segs_cons cs
      simp only [segs, hsp, if_false, hseg] at h
      injection h with h1 h2
      subst h1; subst h2
      obtain ⟨rest, hsplit, hrest⟩ := segs_decomp cs s' ss' hseg
      have htr : tryTs pw c cs = tryTs pw c s' := by
        conv_lhs => rw [hsplit]
        exact tryTs_space_append hrest
      have hiff := ih (isWordChar c) s' ss' hseg
      simp only [noTsB, htr, Bool.and_eq_true]
      constructor
      · rintro ⟨h1, h2⟩
        exact ⟨⟨h1, (hiff.mp h2).1⟩, (hiff.mp h2).2⟩
      · rintro ⟨⟨h1, h2⟩, h3⟩
        exact ⟨h1, hiff.mpr ⟨h2, h3⟩⟩

theorem noTsB_all_segs {l : List Char} (h : noTsB false l = true) :
    ∀ t ∈ segs l, noTsB false t = true := by
  obtain ⟨s, ss, hseg⟩ := segs_cons l
  have hiff := noTsB_segs l false s ss hseg
  intro t htm
  rw [hseg] at htm
  rcases List.mem_cons.mp htm with rfl | htm'
  · exact (hiff.mp h).1
  · exact (hiff.mp h).2 t htm'

theorem noTsB_of_segs {l : List Char} (h : ∀ t ∈ segs l, noTsB false t = true) :
    noTsB false l = true := by
  obtain ⟨s, ss, hseg⟩ := segs_cons l
  refine (noTsB_segs l false s ss hseg).mpr ⟨?_, ?_⟩
  · exact h s (by rw [hseg]; exact List.mem_cons_self _ _)
  · intro t htm
    exact h t (by rw [hseg]; exact List.mem_cons_of_mem _ htm)

theorem segs_dropWhile (l : List Char) :
    ∀ t ∈ segs (l.dropWhile pyIsSpace), t = [] ∨ t ∈ segs l := by
  induction l with
  | nil => intro t ht; simp [segs] at ht; exact Or.inl ht
  | cons c cs ih =>
    by_cases hsp : pyIsSpace c = true
    · intro t ht
      rw [List.dropWhile_cons_of_pos (by simpa using hsp)] at ht
      rcases ih t ht with h | h
      · exact Or.inl h
      · refine Or.inr ?_
        simp only [segs, hsp, if_true]
        exact List.mem_cons_of_mem _ h
    · intro t ht
      rw [List.dropWhile_cons_of_neg (by simpa using hsp)] at ht
      exact Or.inr ht

theorem segs_head_mem {l : List Char} {s : List Char}
    (h : (segs l).head? = some s) : s ∈ segs l := by
  obtain ⟨s0, ss, hseg⟩ := segs_cons l
  rw [hseg] at h ⊢
  simp only [List.head?_cons, Option.some.injEq] at h
  subst h
  exact List.mem_cons_self _ _

theorem segs_wsGo : ∀ (fuel : Nat) (l : List Char), l.length ≤ fuel →
    ((segs (wsGo fuel l)).head? = (segs l).head? ∧
     (∀ t ∈ (segs (wsGo fuel l)).tail, t = [] ∨ t ∈ (segs l).tail) ∧
     (∀ t ∈ segs (wsGo fuel l), t = [] ∨ t ∈ segs l)) := by
  intro fuel
  induction fuel with
  | zero =>
    intro l hl
    have : l = [] := List.eq_nil_of_length_eq_zero (Nat.le_zero.mp hl)
    subst this
    exact ⟨rfl, fun t ht => by simp [segs] at ht, fun t ht => Or.inr ht⟩
  | succ n ih =>
    intro l hl
    cases l with
    | nil => exact ⟨rfl, fun t ht => by simp [segs] at ht, fun t ht => Or.inr ht⟩
    | cons c cs =>
      have hcs : cs.length ≤ n := by simp at hl; omega
      by_cases hsp : pyIsSpace c = true
      · have hout : wsGo (n + 1) (c :: cs) = ' ' :: wsGo n (cs.dropWhile pyIsSpace) := by
          simp [wsGo, hsp]
        have hdw : (cs.dropWhile pyIsSpace).length ≤ n :=
          le_trans (List.IsSuffix.sublist (List.dropWhile_suffix pyIsSpace)).length_le hcs
        obtain ⟨hhead, htail, hfull⟩ := ih (cs.dropWhile pyIsSpace) hdw
        have hsegout : segs (wsGo (n + 1) (c :: cs)) =
            [] :: segs (wsGo n (cs.dropWhile pyIsSpace)) := by
          rw [hout]; simp [segs, pyIsSpace]
        have hsegin : segs (c :: cs) = [] :: segs cs := by simp [segs, hsp]
        refine ⟨by rw [hsegout, hsegin]; rfl, ?_, ?_⟩
        · intro t ht
          rw [hsegout] at ht
          simp only [List.tail_cons] at ht
          rcases hfull t ht with h | h
          · exact Or.inl h
          · rcases segs_dropWhile cs t h with h2 | h2
            · exact Or.inl h2
            · rw [hsegin]; exact Or.inr h2
        · intro t ht
          rw [hsegout] at ht
          rcases List.mem_cons.mp ht with rfl | ht'
          · exact Or.inl rfl
          · rcases hfull t ht' with h | h
            · exact Or.inl h
            · rcases segs_dropWhile cs t h with h2 | h2
              · exact Or.inl h2
              · rw [hsegin]; exact Or.inr (List.mem_cons_of_mem _ h2)
      · have hout : wsGo (n + 1) (c :: cs) = c :: wsGo n cs := by
          simp [wsGo, hsp]
        obtain ⟨hhead, htail, hfull⟩ := ih cs hcs
        obtain ⟨sX, ssX, hsegX⟩ := segs_cons (wsGo n cs)
        obtain ⟨s0, ss0, hseg0⟩ := segs_cons cs
        have hs : sX = s0 := by
          rw [hsegX, hseg0] at hhead
          simpa using hhead
        have hsegout : segs (wsGo (n + 1) (c :: cs)) = (c :: sX) :: ssX := by
          rw [hout]; simp [segs, hsp, hsegX]
        have hsegin : segs (c :: cs) = (c :: s0) :: ss0 := by
          simp [segs, hsp, hseg0]
        refine ⟨by rw [hsegout, hsegin, hs]; rfl, ?_, ?_⟩
        · intro t ht
          rw [hsegout] at ht
          simp only [List.tail_cons] at ht
          have := htail t (by rw [hsegX]; exact ht)
          rcases this with h | h
          · exact Or.inl h
          · rw [hsegin]
            simp only [List.tail_cons]
            rw [hseg0] at h
            simp only [List.tail_cons] at h
            exact Or.inr h
        · intro t ht
          rw [hsegout] at ht
          rcases List.mem_cons.mp ht with rfl | ht'
          · rw [hsegin, hs]; exact Or.inr (List.mem_cons_self _ _)
          · have := htail t (by rw [hsegX]; exact ht')
            rcases this with h | h
            · exact Or.inl h
            · rw [hseg0] at h
              simp only [List.tail_cons] at h
              rw [hsegin]
              exact Or.inr (List.mem_cons_of_mem _ h)

theorem dropTrail_eq_nil : ∀ {l : List Char}, dropTrail l = [] →
    ∀ x ∈ l, pyIsSpace x = true := by
  intro l
  induction l with
  | nil => intro h x hx; simp at hx
  | cons c cs ih =>
    intro h x hx
    cases hdt : dropTrail cs with
    | nil =>
      simp only [dropTrail, hdt] at h
      by_cases hsp : pyIsSpace c = true
      · rcases List.mem_cons.mp hx with rfl | hx'
        · exact hsp
        · exact ih hdt x hx'
      · rw [if_neg hsp] at h; simp at h
    | cons r0 rs =>
      simp only [dropTrail, hdt] at h
      exact List.noConfusion h

theorem segs_all_space_head {l : List Char}
    (h : ∀ x ∈ l, pyIsSpace x = true) : (segs l).head? = some [] := by
  cases l with
  | nil => rfl
  | cons c cs =>
    have hc := h c (List.mem_cons_self _ _)
    simp [segs, hc]

theorem segs_cons_not_space {c : Char} {cs s : List Char}
    {ss : List (List Char)} (hsp : ¬ pyIsSpace c = true)
    (h : segs cs = s :: ss) : segs (c :: cs) = (c :: s) :: ss := by
  simp only [segs, hsp, if_false, h]
  rfl

theorem segs_dropTrail : ∀ l : List Char,
    ((segs (dropTrail l)).head? = (segs l).head? ∨ dropTrail l = []) ∧
    (∀ t ∈ (segs (dropTrail l)).tail, t = [] ∨ t ∈ (segs l).tail) ∧
    (∀ t ∈ segs (dropTrail l), t = [] ∨ t ∈ segs l) := by
  intro l
  induction l with
  | nil =>
    exact ⟨Or.inl rfl, fun t ht => by simp [segs] at ht,
      fun t ht => Or.inr ht⟩
  | cons c cs ih =>
    obtain ⟨ihh, iht, ihf⟩ := ih
    cases hdt : dropTrail cs with
    | nil =>
      have hall : ∀ x ∈ cs, pyIsSpace x = true := dropTrail_eq_nil hdt
      by_cases hsp : pyIsSpace c = true
      · have hout : dropTrail (c :: cs) = [] := by simp [dropTrail, hdt, hsp]
        rw [hout]
        refine ⟨Or.inr rfl, fun t ht => by simp [segs] at ht, fun t ht => ?_⟩
        simp [segs] at ht
        exact Or.inl ht
      · have hout : dropTrail (c :: cs) = [c] := by simp [dropTrail, hdt, hsp]
        rw [hout]
        obtain ⟨s0, ss0, hseg0⟩ := segs_cons cs
        have hs0 : s0 = [] := by
          have hh := segs_all_space_head hall
          rw [hseg0] at hh; simpa using hh
        have hsegin : segs (c :: cs) = (c :: s0) :: ss0 := by
          simp [segs, hsp, hseg0]
        have hsegc : segs [c] = [[c]] := by simp [segs, hsp]
        refine ⟨Or.inl (by rw [hsegc, hsegin, hs0]; rfl), ?_, ?_⟩
        · intro t ht
          rw [hsegc] at ht
          simp at ht
        · intro t ht
          rw [hsegc] at ht
          rcases List.mem_cons.mp ht with rfl | ht'
          · rw [hsegin, hs0]; exact Or.inr (List.mem_cons_self _ _)
          · simp at ht'
    | cons r0 rs =>
      have hout : dropTrail (c :: cs) = c :: (r0 :: rs) := by
        simp [dropTrail, hdt]
      rw [hout]
      by_cases hsp : pyIsSpace c = true
      · have hsegout : segs (c :: r0 :: rs) = [] :: segs (r0 :: rs) := by
          simp [segs, hsp]
        have hsegin : segs (c :: cs) = [] :: segs cs := by simp [segs, hsp]
        refine ⟨Or.inl (by rw [hsegout, hsegin]; rfl), ?_, ?_⟩
        · intro t ht
          rw [hsegout] at ht
          simp only [List.tail_cons] at ht
          rcases ihf t (by rw [hdt]; exact ht) with h | h
          · exact Or.inl h
          · rw [hsegin]; simp only [List.tail_cons]; exact Or.inr h
        · intro t ht
          rw [hsegout] at ht
          rcases List.mem_cons.mp ht with rfl | ht'
          · exact Or.inl rfl
          · rcases ihf t (by rw [hdt]; exact ht') with h | h
            · exact Or.inl h
            · rw [hsegin]; exact Or.inr (List.mem_cons_of_mem _ h)
      · obtain ⟨sR, ssR, hsegR⟩ := segs_cons (r0 :: rs)
        obtain ⟨s0, ss0, hseg0⟩ := segs_cons cs
        have hsR : sR = s0 := by
          rcases ihh with hh | hnil
          · rw [hdt, hsegR, hseg0] at hh; simpa using hh
          · rw [hdt] at hnil; simp at hnil
        have hsegout : segs (c :: r0 :: rs) = (c :: sR) :: ssR :=
          segs_cons_not_space hsp hsegR
        have hsegin : segs (c :: cs) = (c :: s0) :: ss0 :=
          segs_cons_not_space hsp hseg0
        refine ⟨Or.inl (by rw [hsegout, hsegin, hsR]; rfl), ?_, ?_⟩
        · intro t ht
          rw [hsegout] at ht
          simp only [List.tail_cons] at ht
          rcases iht t (by rw [hdt, hsegR]; exact ht) with h | h
          · exact Or.inl h
          · rw [hseg0] at h
            simp only [List.tail_cons] at h
            rw [hsegin]
            simp only [List.tail_cons]
            exact Or.inr h
        · intro t ht
          rw [hsegout] at ht
          rcases List.mem_cons.mp ht with rfl | ht'
          · rw [hsegin, hsR]; exact Or.inr (List.mem_cons_self _ _)
          · rcases iht t (by rw [hdt, hsegR]; exact ht') with h | h
            · exact Or.inl h
            · rw [hseg0] at h
              simp only [List.tail_cons] at h
              rw [hsegin]
              exact Or.inr (List.mem_cons_of_mem _ h)

/-! ### Collapsed-and-stripped strings are fixed points -/

theorem wsGo_nil (fuel : Nat) : wsGo fuel [] = [] := by
  cases fuel <;> rfl

theorem tagGo_nil (fuel : Nat) : tagGo fuel [] = [] := by
  cases fuel <;> rfl

theorem dropWhile_head_not {p : Char → Bool} :
    ∀ (l : List Char) (d : Char) (ds : List Char),
    l.dropWhile p = d :: ds → p d = false := by
  intro l
  induction l with
  | nil => intro d ds h; simp at h
  | cons c cs ih =>
    intro d ds h
    by_cases hc : p c = true
    · rw [List.dropWhile_cons_of_pos hc] at h
      exact ih d ds h
    · rw [List.dropWhile_cons_of_neg (by simpa using hc)] at h
      injection h with h1 h2
      subst h1
      simpa using hc

/-- The collapsed form: every whitespace character is a single space. -/
theorem wsGo_id : ∀ (fuel : Nat) (l : List Char), l.length ≤ fuel →
    (∀ c ∈ l, pyIsSpace c = true → c = ' ') →
    l.Chain' (fun a b => ¬(pyIsSpace a = true ∧ pyIsSpace b = true)) →
    wsGo fuel l = l := by
  intro fuel
  induction fuel with
  | zero =>
    intro l hl h1 h2
    have : l = [] := List.eq_nil_of_length_eq_zero (Nat.le_zero.mp hl)
    subst this; rfl
  | succ n ih =>
    intro l hl h1 h2
    cases l with
    | nil => rfl
    | cons c cs =>
      have hcs : cs.length ≤ n := by simp at hl; omega
      by_cases hsp : pyIsSpace c = true
      · have hc : c = ' ' := h1 c (List.mem_cons_self _ _) hsp
        have hdw : cs.dropWhile pyIsSpace = cs := by
          cases cs with
          | nil => rfl
          | cons d ds =>
            have hR := (List.chain'_cons.mp h2).1
            have hd : pyIsSpace d = false := by
              by_cases hdd : pyIsSpace d = true
              · exact absurd ⟨hsp, hdd⟩ hR
              · simpa using hdd
            exact List.dropWhile_cons_of_neg (by simp [hd])
        have hrest : wsGo n cs = cs := by
          apply ih cs hcs
          · intro x hx hxs; exact h1 x (List.mem_cons_of_mem _ hx) hxs
          · cases cs with
            | nil => exact List.chain'_nil
            | cons d ds => exact (List.chain'_cons.mp h2).2
        simp only [wsGo, hsp, if_true, hdw, hrest, hc]
        split <;> rfl
      · have hrest : wsGo n cs = cs := by
          apply ih cs hcs
          · intro x hx hxs; exact h1 x (List.mem_cons_of_mem _ hx) hxs
          · cases cs with
            | nil => exact List.chain'_nil
            | cons d ds => exact (List.chain'_cons.mp h2).2
        simp only [wsGo, hsp, if_false, hrest]
        rw [if_neg (by simp)]

/-- The output of the whitespace collapse is collapsed. -/
theorem wsGo_spaces : ∀ (fuel : Nat) (l : List Char), l.length ≤ fuel →
    (∀ c ∈ wsGo fuel l, pyIsSpace c = true → c = ' ') ∧
    (wsGo fuel l).Chain' (fun a b => ¬(pyIsSpace a = true ∧ pyIsSpace b = true)) := by
  intro fuel
  induction fuel with
  | zero =>
    intro l hl
    have : l = [] := List.eq_nil_of_length_eq_zero (Nat.le_zero.mp hl)
    subst this
    exact ⟨fun c hc => by rw [wsGo_nil] at hc; simp at hc, List.chain'_nil⟩
  | succ n ih =>
    intro l hl
    cases l with
    | nil => exact ⟨fun c hc => by rw [wsGo_nil] at hc; simp at hc,
        by rw [wsGo_nil]; exact List.chain'_nil⟩
    | cons c cs =>
      have hcs : cs.length ≤ n := by simp at hl; omega
      by_cases hsp : pyIsSpace c = true
      · have hdw : (cs.dropWhile pyIsSpace).length ≤ n :=
          le_trans (List.IsSuffix.sublist (List.dropWhile_suffix pyIsSpace)).length_le hcs
        obtain ⟨ih1, ih2⟩ := ih (cs.dropWhile pyIsSpace) hdw
        have hout : wsGo (n + 1) (c :: cs) =
            ' ' :: wsGo n (cs.dropWhile pyIsSpace) := by simp [wsGo, hsp]
        rw [hout]
        constructor
        · intro x hx hxs
          rcases List.mem_cons.mp hx with rfl | hx'
          · rfl
          · exact ih1 x hx' hxs
        · refine List.chain'_cons'.mpr ⟨?_, ih2⟩
          intro b hb
          cases hdwc : cs.dropWhile pyIsSpace with
          | nil => rw [hdwc, wsGo_nil] at hb; simp at hb
          | cons d ds =>
            have hd : pyIsSpace d = false := dropWhile_head_not cs d ds hdwc
            have hlen : (d :: ds).length ≤ n := by rw [← hdwc]; exact hdw
            cases n with
            | zero => simp at hlen
            | succ m =>
              have : wsGo (m + 1) (d :: ds) = d :: wsGo m ds := by
                simp [wsGo, hd]
              rw [hdwc, this] at hb
              simp only [List.head?_cons, Option.mem_def, Option.some.injEq] at hb
              subst hb
              rintro ⟨-, hbs⟩
              rw [hd] at hbs
              exact Bool.noConfusion hbs
      · obtain ⟨ih1, ih2⟩ := ih cs hcs
        have hout : wsGo (n + 1) (c :: cs) = c :: wsGo n cs := by
          simp [wsGo, hsp]
        rw [hout]
        constructor
        · intro x hx hxs
          rcases List.mem_cons.mp hx with rfl | hx'
          · exact absurd hxs hsp
          · exact ih1 x hx' hxs
        · refine List.chain'_cons'.mpr ⟨?_, ih2⟩
          intro b hb
          rintro ⟨hcs', -⟩
          exact hsp hcs'

theorem dropWhile_id_of_head {l : List Char}
    (h : ∀ d, l.head? = some d → pyIsSpace d = false) :
    l.dropWhile pyIsSpace = l := by
  cases l with
  | nil => rfl
  | cons c cs =>
    exact List.dropWhile_cons_of_neg (by simp [h c rfl])

theorem dropTrail_cons_eq (c : Char) (cs : List Char) :
    dropTrail (c :: cs) =
      match dropTrail cs with
      | [] => if pyIsSpace c = true then [] else [c]
      | r => c :: r := rfl

theorem dropTrail_id : ∀ (l : List Char),
    (∀ d, l.getLast? = some d → pyIsSpace d = false) → dropTrail l = l := by
  intro l
  induction l with
  | nil => intro h; rfl
  | cons c cs ih =>
    intro h
    cases cs with
    | nil =>
      have hc : pyIsSpace c = false := h c (by simp)
      simp [dropTrail, hc]
    | cons d ds =>
      have hrec : dropTrail (d :: ds) = d :: ds := by
        apply ih
        intro x hx
        apply h
        rw [List.getLast?_cons_cons]
        exact hx
      rw [dropTrail_cons_eq, hrec]

theorem dropTrail_last : ∀ (l : List Char) (d : Char),
    (dropTrail l).getLast? = some d → pyIsSpace d = false := by
  intro l
  induction l with
  | nil => intro d h; simp [dropTrail] at h
  | cons c cs ih =>
    intro d h
    cases hdt : dropTrail cs with
    | nil =>
      simp only [dropTrail, hdt] at h
      by_cases hsp : pyIsSpace c = true
      · rw [if_pos hsp] at h; simp at h
      · rw [if_neg hsp] at h
        simp only [List.getLast?_singleton, Option.some.injEq] at h
        subst h
        simpa using hsp
    | cons r0 rs =>
      simp only [dropTrail, hdt] at h
      rw [List.getLast?_cons_cons] at h
      exact ih d (by rw [hdt]; exact h)

theorem dropTrail_head (l : List Char) :
    dropTrail l = [] ∨ (dropTrail l).head? = l.head? := by
  cases l with
  | nil => exact Or.inl rfl
  | cons c cs =>
    cases hdt : dropTrail cs with
    | nil =>
      by_cases hsp : pyIsSpace c = true
      · exact Or.inl (by simp [dropTrail, hdt, hsp])
      · refine Or.inr ?_
        have h2 : dropTrail (c :: cs) = [c] := by simp [dropTrail, hdt, hsp]
        rw [h2]
        rfl
    | cons r0 rs =>
      refine Or.inr ?_
      have h2 : dropTrail (c :: cs) = c :: r0 :: rs := by simp [dropTrail, hdt]
      rw [h2]
      rfl

theorem dropTrail_mem : ∀ (l : List Char) (x : Char), x ∈ dropTrail l → x ∈ l := by
  intro l
  induction l with
  | nil => intro x h; simp [dropTrail] at h
  | cons c cs ih =>
    intro x h
    cases hdt : dropTrail cs with
    | nil =>
      simp only [dropTrail, hdt] at h
      by_cases hsp : pyIsSpace c = true
      · rw [if_pos hsp] at h; simp at h
      · rw [if_neg hsp] at h
        simp only [List.mem_singleton] at h
        subst h
        exact List.mem_cons_self _ _
    | cons r0 rs =>
      simp only [dropTrail, hdt] at h
      rcases List.mem_cons.mp h with rfl | h'
      · exact List.mem_cons_self _ _
      · exact List.mem_cons_of_mem _ (ih x (by rw [hdt]; exact h'))

theorem tsGo_mem : ∀ (fuel : Nat) (pw : Bool) (l : List Char) (x : Char),
    x ∈ tsGo fuel pw l → x ∈ l := by
  intro fuel
  induction fuel with
  | zero => intro pw l x h; exact h
  | succ n ih =>
    intro pw l x h
    cases l with
    | nil => rw [tsGo_nil] at h; simp at h
    | cons c cs =>
      simp only [tsGo] at h
      cases htry : tryTs pw c cs with
      | none =>
        rw [htry] at h
        rcases List.mem_cons.mp h with rfl | h'
        · exact List.mem_cons_self _ _
        · exact List.mem_cons_of_mem _ (ih _ cs x h')
      | some k =>
        rw [htry] at h
        exact List.mem_cons_of_mem _ (List.drop_subset _ _ (ih _ _ x h))

theorem wsGo_mem : ∀ (fuel : Nat) (l : List Char) (x : Char),
    x ∈ wsGo fuel l → x ∈ l ∨ x = ' ' := by
  intro fuel
  induction fuel with
  | zero => intro l x h; exact Or.inl h
  | succ n ih =>
    intro l x h
    cases l with
    | nil => simp [wsGo] at h
    | cons c cs =>
      by_cases hsp : pyIsSpace c = true
      · rw [show wsGo (n + 1) (c :: cs) = ' ' :: wsGo n (cs.dropWhile pyIsSpace)
          from by simp [wsGo, hsp]] at h
        rcases List.mem_cons.mp h with rfl | h'
        · exact Or.inr rfl
        · rcases ih _ x h' with h2 | h2
          · exact Or.inl (List.mem_cons_of_mem _
              (List.IsSuffix.subset (List.dropWhile_suffix pyIsSpace) h2))
          · exact Or.inr h2
      · rw [show wsGo (n + 1) (c :: cs) = c :: wsGo n cs
          from by simp [wsGo, hsp]] at h
        rcases List.mem_cons.mp h with rfl | h'
        · exact Or.inl (List.mem_cons_self _ _)
        · rcases ih cs x h' with h2 | h2
          · exact Or.inl (List.mem_cons_of_mem _ h2)
          · exact Or.inr h2

theorem tagGo_id : ∀ (fuel : Nat) (l : List Char), '<' ∉ l →
    tagGo fuel l = l := by
  intro fuel
  induction fuel with
  | zero => intro l h; rfl
  | succ n ih =>
    intro l h
    cases l with
    | nil => rfl
    | cons c cs =>
      have hc : (c == '<') = false := by
        refine beq_eq_false_iff_ne.mpr ?_
        rintro rfl
        exact h (List.mem_cons_self _ _)
      simp only [tagGo, hc]
      rw [if_neg (by simp)]
      rw [ih cs (fun hm => h (List.mem_cons_of_mem _ hm))]

theorem dropTrail_front : ∀ l : List Char, ∃ t, dropTrail l ++ t = l := by
  intro l
  induction l with
  | nil => exact ⟨[], rfl⟩
  | cons c cs ih =>
    cases hdt : dropTrail cs with
    | nil =>
      by_cases hsp : pyIsSpace c = true
      · rw [show dropTrail (c :: cs) = [] from by simp [dropTrail, hdt, hsp]]
        exact ⟨c :: cs, rfl⟩
      · rw [show dropTrail (c :: cs) = [c] from by simp [dropTrail, hdt, hsp]]
        exact ⟨cs, rfl⟩
    | cons r0 rs =>
      rw [show dropTrail (c :: cs) = c :: r0 :: rs from by simp [dropTrail, hdt]]
      rw [hdt] at ih
      obtain ⟨t, ht⟩ := ih
      exact ⟨t, by rw [List.cons_append, ht]⟩

/-- A string whose character list is a fixed point of every stage of the
normalizer is a fixed point of `clean_extracted_text`. -/
theorem clean_fixed {y : String}
    (h1 : tsSub false y.data = y.data)
    (h2 : '<' ∉ y.data)
    (h3 : wsGo y.data.length y.data = y.data)
    (h4 : y.data.dropWhile pyIsSpace = y.data)
    (h5 : dropTrail y.data = y.data) :
    clean_extracted_text y = y := by
  by_cases hy : y = ""
  · subst hy; rfl
  · have hstep : clean_extracted_text y = remove_timestamps_and_tags y := by
      simp [clean_extracted_text, hy]
    rw [hstep]
    show (⟨pyStrip (wsGo (tagGo (tsSub false y.data).length
      (tsSub false y.data)).length (tagGo (tsSub false y.data).length
      (tsSub false y.data)))⟩ : String) = y
    rw [h1, tagGo_id y.data.length y.data h2, h3]
    show (⟨dropTrail (y.data.dropWhile pyIsSpace)⟩ : String) = y
    rw [h4, h5]

/-- C1 amended: `clean_extracted_text` is idempotent on every input that
contains no `<` character (no angle-bracket tag markup).  The timestamp
pass leaves no fresh timestamp token behind (removal junctions sit between
non-word characters and shapes neither end at nor span such junctions),
tag removal is the identity without `<`, and whitespace collapsing and
stripping are idempotent, so the second application is the identity. -/
theorem C1_idempotent_no_tag (s : String) (h : '<' ∉ s.data) :
    clean_extracted_text (clean_extracted_text s) = clean_extracted_text s := by
  by_cases hs : s = ""
  · subst hs; rfl
  · have hcs : clean_extracted_text s = remove_timestamps_and_tags s := by
      simp [clean_extracted_text, hs]
    rw [hcs]
    have hnoz : noTsB false (tsSub false s.data) = true :=
      noTsB_tsSub s.data.length false s.data (Nat.le_refl _)
    have hzlt : '<' ∉ tsSub false s.data :=
      fun hm => h (tsGo_mem _ _ _ _ hm)
    have hb : tagGo (tsSub false s.data).length (tsSub false s.data) =
        tsSub false s.data := tagGo_id _ _ hzlt
    have hyd : (remove_timestamps_and_tags s).data =
        dropTrail ((wsGo (tsSub false s.data).length
          (tsSub false s.data)).dropWhile pyIsSpace) := by
      show pyStrip (wsGo (tagGo (tsSub false s.data).length
        (tsSub false s.data)).length (tagGo (tsSub false s.data).length
        (tsSub false s.data))) = _
      rw [hb]
      rfl
    have hwlt : ∀ x ∈ wsGo (tsSub false s.data).length (tsSub false s.data),
        x ∈ tsSub false s.data ∨ x = ' ' := fun x hx => wsGo_mem _ _ x hx
    have hseg : noTsB false (remove_timestamps_and_tags s).data = true := by
      rw [hyd]
      apply noTsB_of_segs
      intro t ht
      rcases (segs_dropTrail _).2.2 t ht with rfl | h1
      · rfl
      · rcases segs_dropWhile _ t h1 with rfl | h2
        · rfl
        · rcases (segs_wsGo (tsSub false s.data).length (tsSub false s.data)
            (Nat.le_refl _)).2.2 t h2 with rfl | h3
          · rfl
          · exact noTsB_all_segs hnoz t h3
    have hydlt : '<' ∉ (remove_timestamps_and_tags s).data := by
      rw [hyd]
      intro hm
      have hm2 := dropTrail_mem _ _ hm
      have hm3 := List.IsSuffix.subset (List.dropWhile_suffix pyIsSpace) hm2
      rcases hwlt _ hm3 with h4 | h4
      · exact hzlt h4
      · exact absurd h4 (by decide)
    obtain ⟨hp1, hp2⟩ := wsGo_spaces (tsSub false s.data).length
      (tsSub false s.data) (Nat.le_refl _)
    have hp1y : ∀ c ∈ (remove_timestamps_and_tags s).data,
        pyIsSpace c = true → c = ' ' := by
      rw [hyd]
      intro c hc hcs2
      have hm2 := dropTrail_mem _ _ hc
      have hm3 := List.IsSuffix.subset (List.dropWhile_suffix pyIsSpace) hm2
      exact hp1 c hm3 hcs2
    have hp2y : (remove_timestamps_and_tags s).data.Chain'
        (fun a b => ¬(pyIsSpace a = true ∧ pyIsSpace b = true)) := by
      rw [hyd]
      obtain ⟨t, ht⟩ := dropTrail_front ((wsGo (tsSub false s.data).length
        (tsSub false s.data)).dropWhile pyIsSpace)
      have hch := hp2.suffix (List.dropWhile_suffix pyIsSpace)
      rw [← ht] at hch
      exact (List.chain'_append.mp hch).1
    have hws : wsGo (remove_timestamps_and_tags s).data.length
        (remove_timestamps_and_tags s).data =
        (remove_timestamps_and_tags s).data :=
      wsGo_id _ _ (Nat.le_refl _) hp1y hp2y
    have hdw : (remove_timestamps_and_tags s).data.dropWhile pyIsSpace =
        (remove_timestamps_and_tags s).data := by
      rcases dropTrail_head ((wsGo (tsSub false s.data).length
          (tsSub false s.data)).dropWhile pyIsSpace) with hnil | hhd
      · rw [hyd, hnil]; rfl
      · rw [hyd]
        apply dropWhile_id_of_head
        intro d hd
        rw [hhd] at hd
        cases hu : (wsGo (tsSub false s.data).length
            (tsSub false s.data)).dropWhile pyIsSpace with
        | nil => rw [hu] at hd; simp at hd
        | cons d0 ds =>
          rw [hu] at hd
          simp only [List.head?_cons, Option.some.injEq] at hd
          subst hd
          exact dropWhile_head_not _ d0 ds hu
    have hdt : dropTrail (remove_timestamps_and_tags s).data =
        (remove_timestamps_and_tags s).data := by
      rw [hyd]
      exact dropTrail_id _ (fun d hd => dropTrail_last _ d hd)
    exact clean_fixed (noTsB_id _ _ hseg) hydlt hws hdw hdt

/-- Witness for C1 amended at a concrete tag-free input. -/
theorem C1_witness :
    clean_extracted_text (clean_extracted_text "news  at 10:30 tonight") =
      clean_extracted_text "news  at 10:30 tonight" :=
  C1_idempotent_no_tag "news  at 10:30 tonight" (by decide)

/-! ### Removal of a whitespace-delimited timestamp token in context -/

/-- At a non-digit head no match starts, so the scanner emits the head and
moves on with the head's word-flag. -/
theorem tsSub_cons_not_digit {y : Char} (hnd : y.isDigit = false) (pw : Bool)
    (ys : List Char) : tsSub pw (y :: ys) = y :: tsSub (isWordChar y) ys := by
  show tsGo (ys.length + 1) pw (y :: ys) = _
  simp only [tsGo, tryTs_not_digit hnd]
  rw [tsGo_fuel ys.length (isWordChar y) ys (Nat.le_refl _)]

/-- Initial word-flags agree on a space-headed list: the flag only matters
before the first character, and a whitespace head admits no match under
either flag. -/
theorem tsSub_space_pw {post : List Char} (h : spaceHeaded post)
    (b1 b2 : Bool) : tsSub b1 post = tsSub b2 post := by
  rcases h with rfl | ⟨y, ys, rfl, hy⟩
  · rfl
  · have hnd : y.isDigit = false := space_not_digit hy
    show tsGo (ys.length + 1) b1 (y :: ys) = tsGo (ys.length + 1) b2 (y :: ys)
    simp only [tsGo, tryTs_not_digit hnd]

/-- A timestamp-shaped token at the head of the remainder, followed by
whitespace or the end of the string, is spliced out whole and the scan
continues as if it had never been there. -/
theorem tsSub_token_cancel {c : Char} {u post : List Char}
    (hc : c.isDigit = true) (hu : TsShape u) (hpost : spaceHeaded post) :
    tsSub false ((c :: u) ++ post) = tsSub false post := by
  have htr : tryTs false c (u ++ post) = some u.length := by
    rw [tryTs_space_append hpost, tryTs_token c u hc hu]
  show tsGo ((u ++ post).length + 1) false (c :: (u ++ post)) = tsSub false post
  simp only [tsGo, htr]
  rw [tsGo_fuel ((u ++ post).length) true ((u ++ post).drop u.length)
    (by simp [List.length_drop]), List.drop_left]
  exact tsSub_space_pw hpost true false

/-- Scanning a prefix is insensitive to what follows a whitespace
junction: against two space-headed remainders the scan of `l` emits the
same output and reaches the junction with the same word-flag. -/
theorem tsGo_split_space :
    ∀ (n : Nat) (l : List Char) (pw : Bool) (r1 r2 : List Char),
      l.length ≤ n → spaceHeaded r1 → spaceHeaded r2 →
      ∃ front pwEnd, tsSub pw (l ++ r1) = front ++ tsSub pwEnd r1 ∧
        tsSub pw (l ++ r2) = front ++ tsSub pwEnd r2 := by
  intro n
  induction n with
  | zero =>
    intro l pw r1 r2 hl h1 h2
    have hnil : l = [] := by
      cases l with
      | nil => rfl
      | cons x xs => simp at hl
    subst hnil
    exact ⟨[], pw, by simp, by simp⟩
  | succ n ih =>
    intro l pw r1 r2 hl h1 h2
    cases l with
    | nil => exact ⟨[], pw, by simp, by simp⟩
    | cons x l' =>
      have hl' : l'.length ≤ n := by simp at hl; omega
      have htr1 : tryTs pw x (l' ++ r1) = tryTs pw x l' := tryTs_space_append h1
      have htr2 : tryTs pw x (l' ++ r2) = tryTs pw x l' := tryTs_space_append h2
      cases hres : tryTs pw x l' with
      | none =>
        rw [hres] at htr1 htr2
        obtain ⟨front, pwEnd, e1, e2⟩ := ih l' (isWordChar x) r1 r2 hl' h1 h2
        refine ⟨x :: front, pwEnd, ?_, ?_⟩
        · show tsGo ((l' ++ r1).length + 1) pw (x :: (l' ++ r1)) =
            (x :: front) ++ tsSub pwEnd r1
          simp only [tsGo, htr1]
          rw [tsGo_fuel (l' ++ r1).length (isWordChar x) (l' ++ r1)
            (Nat.le_refl _), e1]
          rfl
        · show tsGo ((l' ++ r2).length + 1) pw (x :: (l' ++ r2)) =
            (x :: front) ++ tsSub pwEnd r2
          simp only [tsGo, htr2]
          rw [tsGo_fuel (l' ++ r2).length (isWordChar x) (l' ++ r2)
            (Nat.le_refl _), e2]
          rfl
      | some k =>
        rw [hres] at htr1 htr2
        obtain ⟨-, -, u, rr, happ, -, hlen, -⟩ := tryTs_some hres
        have hk : k ≤ l'.length := by rw [happ, List.length_append]; omega
        have hld : (l'.drop k).length ≤ n := by
          simp only [List.length_drop]; omega
        obtain ⟨front, pwEnd, e1, e2⟩ := ih (l'.drop k) true r1 r2 hld h1 h2
        refine ⟨front, pwEnd, ?_, ?_⟩
        · show tsGo ((l' ++ r1).length + 1) pw (x :: (l' ++ r1)) =
            front ++ tsSub pwEnd r1
          simp only [tsGo, htr1]
          rw [tsGo_fuel (l' ++ r1).length true ((l' ++ r1).drop k)
            (by simp only [List.length_drop]; omega),
            List.drop_append_of_le_length hk, e1]
        · show tsGo ((l' ++ r2).length + 1) pw (x :: (l' ++ r2)) =
            front ++ tsSub pwEnd r2
          simp only [tsGo, htr2]
          rw [tsGo_fuel (l' ++ r2).length true ((l' ++ r2).drop k)
            (by simp only [List.length_drop]; omega),
            List.drop_append_of_le_length hk, e2]

/-- C5: the normalizer removes every whitespace-delimited timestamp-shaped
token `H:MM` or `H:MM:SS(.fff)` from its input: wherever such a token
occurs between whitespace (or an edge of the string), with arbitrary text
around it, the output equals the output on the input with the token
deleted, so the surrounding whitespace collapses exactly as if the token
were absent; and on the spec's example the token is removed with the
whitespace collapsed. -/
theorem C5_timestamp_removal :
    (∀ (pre post : List Char) (c : Char) (u : List Char),
      c.isDigit = true → TsShape u → spaceTailed pre → spaceHeaded post →
      remove_timestamps_and_tags ⟨pre ++ (c :: u) ++ post⟩ =
        remove_timestamps_and_tags ⟨pre ++ post⟩) ∧
    clean_extracted_text "00:01:23.456 breaking news" = "breaking news" := by
  refine ⟨fun pre post c u hc hu hpre hpost => ?_, by decide⟩
  have hts : tsSub false (pre ++ (c :: u) ++ post) =
      tsSub false (pre ++ post) := by
    rcases hpre with rfl | ⟨p, ps, rfl, hp⟩
    · exact tsSub_token_cancel hc hu hpost
    · have h1 : spaceHeaded (p :: ((c :: u) ++ post)) :=
        Or.inr ⟨p, (c :: u) ++ post, rfl, hp⟩
      have h2 : spaceHeaded (p :: post) := Or.inr ⟨p, post, rfl, hp⟩
      obtain ⟨front, pwEnd, e1, e2⟩ :=
        tsGo_split_space ps.length ps false _ _ (Nat.le_refl _) h1 h2
      have ha1 : (ps ++ [p]) ++ (c :: u) ++ post =
          ps ++ (p :: ((c :: u) ++ post)) := by simp
      have ha2 : (ps ++ [p]) ++ post = ps ++ (p :: post) := by simp
      rw [ha1, ha2, e1, e2]
      congr 1
      have hnd : p.isDigit = false := space_not_digit hp
      rw [tsSub_cons_not_digit hnd pwEnd ((c :: u) ++ post),
        tsSub_cons_not_digit hnd pwEnd post, space_not_word hp,
        tsSub_token_cancel hc hu hpost]
  show (⟨pyStrip (wsGo (tagGo (tsSub false (pre ++ (c :: u) ++ post)).length
      (tsSub false (pre ++ (c :: u) ++ post))).length
      (tagGo (tsSub false (pre ++ (c :: u) ++ post)).length
        (tsSub false (pre ++ (c :: u) ++ post))))⟩ : String) =
    ⟨pyStrip (wsGo (tagGo (tsSub false (pre ++ post)).length
      (tsSub false (pre ++ post))).length
      (tagGo (tsSub false (pre ++ post)).length
        (tsSub false (pre ++ post))))⟩
  rw [hts]

/-- Witness for C5: the token `7:45` between surrounding text is removed
and the whitespace around it collapses as if the token were absent. -/
theorem C5_witness :
    remove_timestamps_and_tags
        ⟨['n', 'e', 'w', 's', ' '] ++ ('7' :: [':', '4', '5']) ++
          [' ', 'n', 'o', 'w']⟩ =
      remove_timestamps_and_tags
        ⟨['n', 'e', 'w', 's', ' '] ++ [' ', 'n', 'o', 'w']⟩ :=
  C5_timestamp_removal.1 ['n', 'e', 'w', 's', ' '] [' ', 'n', 'o', 'w'] '7'
    [':', '4', '5'] (by decide) (TsShape.hm1 '4' '5' (by decide) (by decide))
    (Or.inr ⟨' ', ['n', 'e', 'w', 's'], rfl, by decide⟩)
    (Or.inr ⟨' ', ['n', 'o', 'w'], rfl, by decide⟩)
